import Mathlib

/-!
Verification of the BlobStash storage core against its specification.

The development shallowly embeds two subsystems of the repository:

* the BlobsFile packed-file blob store (package `blobsfile`): frame
  encoding/decoding, container rollover, the position index, put/get/delete,
  the scan/reindex pass and range enumeration;
* the Merkle-tree sync table (package `synctable`): the two-level state tree,
  the sync HTTP handler's diff computation and the client's response decoding.

Bytes are modelled as `List Nat` (each entry a value below 256 where it
matters).  The BLAKE2b digest and the Snappy codec are external libraries and
are taken as explicit function parameters; theorems that need them assume only
the properties the code relies on (a 32-byte digest, a decode/encode
roundtrip).  Go functions that can fail return the post-state together with an
optional error; Go panics are modelled as dedicated error constructors so they
stay distinguishable from errors returned to the caller.
-/

deriving instance DecidableEq for Except

namespace BlobsFile

/-- Byte strings, the universal data representation of the embedding. -/
abbrev Bytes := List Nat

/-- Container-file magic header, the Go constant `"\x00Blobs"`. -/
def magic : Bytes := [0, 66, 108, 111, 98, 115]

/-- Per-frame metadata overhead: 32-byte hash, 1 flags byte, 4 size bytes. -/
def Overhead : Nat := 37

/-- Length of the stored hash, `hashSize` in the source. -/
def hashSize : Nat := 32

/-- The `Deleted` flag bit (`1 << 0`). -/
def DeletedFlag : Nat := 1

/-- Little-endian encoding of a 32-bit size, `binary.LittleEndian.PutUint32`. -/
def u32le (n : Nat) : Bytes :=
  [n % 256, n / 256 % 256, n / 65536 % 256, n / 16777216 % 256]

/-- Little-endian decoding of a 32-bit size, `binary.LittleEndian.Uint32`. -/
def u32dec (b : Bytes) : Nat :=
  b.getD 0 0 + 256 * b.getD 1 0 + 65536 * b.getD 2 0 + 16777216 * b.getD 3 0

/-- One hex digit character code, lower-case as produced by Go `%x`. -/
def hexDigit (d : Nat) : Nat := if d < 10 then 48 + d else 87 + d

/-- Hex encoding of a byte string (`hex.EncodeToString` / `%x`). -/
def hexEncode : Bytes → Bytes
  | [] => []
  | b :: bs => hexDigit (b % 256 / 16) :: hexDigit (b % 16) :: hexEncode bs

/-- Value of one hex character, accepting both cases like Go `hex.DecodeString`. -/
def unhexDigit (c : Nat) : Option Nat :=
  if 48 ≤ c ∧ c ≤ 57 then some (c - 48)
  else if 97 ≤ c ∧ c ≤ 102 then some (c - 87)
  else if 65 ≤ c ∧ c ≤ 70 then some (c - 55)
  else none

/-- Hex decoding (`hex.DecodeString`): fails on odd length or bad characters. -/
def hexDecode : Bytes → Option Bytes
  | [] => some []
  | [_] => none
  | c1 :: c2 :: rest =>
    match unhexDigit c1, unhexDigit c2, hexDecode rest with
    | some d1, some d2, some r => some ((16 * d1 + d2) :: r)
    | _, _, _ => none

/-- Strict lexicographic byte-string order, matching `bytes.Compare _ _ < 0`
(a proper prefix sorts first). -/
def lexLt : Bytes → Bytes → Bool
  | [], [] => false
  | [], _ :: _ => true
  | _ :: _, [] => false
  | a :: as, b :: bs => if a < b then true else if b < a then false else lexLt as bs

/-- Position record `(container#, offset, payload size)` — `BlobPos` in the source. -/
structure BlobPos where
  n : Nat
  offset : Nat
  size : Nat
deriving Repr, DecidableEq

/-- The ordered position index, keyed by the raw hash bytes.
Modelled from the spec: the index implementation (`BlobsIndex`, a `kv` store
with keys `prefix_byte | hash_bytes`) is not part of the provided sources, only
its callers are; the spec describes it as a persistent ordered key→value store
with `set`, `get`, `delete` and prefix iteration.  It is represented as an
association list kept sorted by key. -/
abbrev Index := List (Bytes × BlobPos)

/-- Key prefix byte for position records.
Modelled from the spec: the spec fixes the layout `prefix_byte | hash_bytes`
with separate prefixes for position records and the `n` counter; the concrete
byte value is not in the provided sources and is modelled as `0`. -/
def BlobPosKey : Nat := 0

/-- Full index key of a hash, `formatKey(BlobPosKey, hash)`. -/
def formatKey (p : Nat) (k : Bytes) : Bytes := p :: k

/-- Ordered insert-or-replace into the index (`index.SetPos`).
Modelled from the spec: an ordered KV `set` keeps keys sorted. -/
def indexSet : Index → Bytes → BlobPos → Index
  | [], k, v => [(k, v)]
  | (k', v') :: rest, k, v =>
    if k = k' then (k, v) :: rest
    else if lexLt k k' then (k, v) :: (k', v') :: rest
    else (k', v') :: indexSet rest k v

/-- Index lookup (`index.GetPos`); `none` plays the role of the nil record. -/
def indexGet (idx : Index) (k : Bytes) : Option BlobPos :=
  (idx.find? (fun kv => kv.1 == k)).map (·.2)

/-- Index deletion (`index.DeletePos`). -/
def indexDel (idx : Index) (k : Bytes) : Index :=
  idx.filter (fun kv => kv.1 != k)

/-- In-memory state of a `BlobsFileBackend`: the container files, the current
write position and the position index.  `indexN` is the persisted `n` counter
(`saveN`/`GetN`). -/
structure Store where
  n : Nat
  size : Nat
  containers : List Bytes
  index : Index
  indexN : Nat
  maxSize : Nat
  compression : Bool
deriving Repr, DecidableEq

/-- Replace the `i`-th container by `g` applied to it. -/
def updAt : List Bytes → Nat → (Bytes → Bytes) → List Bytes
  | [], _, _ => []
  | c :: cs, 0, g => g c :: cs
  | c :: cs, i + 1, g => c :: updAt cs i g

/-- Positional read (`ReadAt`): `none` when fewer than `len` bytes are available. -/
def readAt (cs : List Bytes) (n off len : Nat) : Option Bytes :=
  let f := cs.getD n []
  if off + len ≤ f.length then some ((f.drop off).take len) else none

/-- Frame encoding (`encodeBlob`): 32-byte digest (zero-padded/truncated by the
`copy` into the fixed buffer), a zero flags byte, the little-endian payload
size, then the payload (Snappy-compressed when compression is on).  Returns
the payload size and the frame, like the source. -/
def encodeBlob (H : Bytes → Bytes) (sE : Bytes → Bytes) (compression : Bool)
    (blob : Bytes) : Nat × Bytes :=
  let hsum := ((H blob) ++ List.replicate hashSize 0).take hashSize
  let payload := if compression then sE blob else blob
  (payload.length, hsum ++ [0] ++ u32le payload.length ++ payload)

/-- Errors of the read path.  The `…Panicked` constructors model Go `panic`
calls inside `decodeBlob`, which abort the operation rather than being
returned as error values. -/
inductive GetErr where
  | notFound
  | readError
  | badSize
  | snappyPanicked
  | hashMismatchPanicked
deriving Repr, DecidableEq

/-- Frame decoding (`decodeBlob`): read the size field, copy out the payload
(the Go `copy` into a `size`-byte buffer zero-fills a short source and
truncates a long one), Snappy-decode when compression is on, then recompute
the digest and compare it with the frame's hash field; a mismatch or a Snappy
failure is a `panic` in the source. -/
def decodeBlob (H : Bytes → Bytes) (sD : Bytes → Option Bytes)
    (compression : Bool) (data : Bytes) : Except GetErr (Nat × Bytes) :=
  let size := u32dec ((data.drop (hashSize + 1)).take 4)
  let blob0 := ((data.drop Overhead) ++ List.replicate size 0).take size
  match (if compression then sD blob0 else some blob0) with
  | none => .error .snappyPanicked
  | some blob =>
    if H blob = data.take hashSize then .ok (size, blob)
    else .error .hashMismatchPanicked

/-- Error of the write path; the post-state is reported alongside it. -/
inductive PutErr where
  | writeFailed
deriving Repr, DecidableEq

/-- Container rollover inside `Put`: create `blobs-(n+1)` with the magic
header (`wopen`), persist the new `n` (`saveN`) and open it for read
(`ropen`). -/
def rollover (s : Store) : Store :=
  { s with
    n := s.n + 1
    containers := s.containers ++ [magic]
    size := magic.length
    indexN := s.n + 1 }

/-- `BlobsFileBackend.Put`: encode the blob, roll the container over when
`size + payload_size` would exceed `maxSize`, record the position in the index
and only then append the frame to the current container.  `writeOk` is the
outcome of the `Write` syscall: when it fails the method returns an error, but
the index entry and the size bump already happened. -/
def Put (H : Bytes → Bytes) (sE : Bytes → Bytes) (writeOk : Bool) (s : Store)
    (hash data : Bytes) : Store × Option PutErr :=
  let enc := encodeBlob H sE s.compression data
  let s1 := if s.size + enc.1 > s.maxSize then rollover s else s
  let pos : BlobPos := ⟨s1.n, s1.size, enc.1⟩
  let s2 := { s1 with index := indexSet s1.index hash pos }
  if writeOk then
    ({ s2 with
        containers := updAt s2.containers pos.n (fun f => f ++ enc.2)
        size := s2.size + enc.2.length }, none)
  else
    ({ s2 with size := s2.size + enc.2.length }, some .writeFailed)

/-- `BlobsFileBackend.Get`: look the hash up in the index (`nil` position means
`ErrBlobNotFound`), read the frame, decode it and check the decoded size
against the recorded one.  The store is not mutated. -/
def Get (H : Bytes → Bytes) (sD : Bytes → Option Bytes) (s : Store)
    (hash : Bytes) : Except GetErr Bytes :=
  match indexGet s.index hash with
  | none => .error .notFound
  | some pos =>
    match readAt s.containers pos.n pos.offset (pos.size + Overhead) with
    | none => .error .readError
    | some data =>
      match decodeBlob H sD s.compression data with
      | .error e => .error e
      | .ok sb => if sb.1 ≠ pos.size then .error .badSize else .ok sb.2

/-- Error of the delete path. -/
inductive DelErr where
  | notFound
deriving Repr, DecidableEq

/-- The single-byte tombstone write of `Delete`: `WriteAt([]byte{Deleted},
offset+hashSize)` replaces the flags byte of the frame with the constant `1`. -/
def deleteFlagStep (s : Store) (pos : BlobPos) : Store :=
  { s with
    containers := updAt s.containers pos.n
      (fun f => f.set (pos.offset + hashSize) DeletedFlag) }

/-- Zero a byte range of a file, the observable effect of `fileutil.PunchHole`
on the payload. -/
def zeroRange (o n : Nat) (l : Bytes) : Bytes :=
  l.enum.map (fun p => if o ≤ p.1 ∧ p.1 < o + n then 0 else p.2)

/-- The hole punch of `Delete` over the payload range of the frame. -/
def punchHole (s : Store) (pos : BlobPos) : Store :=
  { s with containers := updAt s.containers pos.n (zeroRange (pos.offset + Overhead) pos.size) }

/-- `BlobsFileBackend.Delete`: fail when the hash has no index entry, else
write the tombstone byte, drop the index entry and punch a hole over the
payload. -/
def Delete (s : Store) (hash : Bytes) : Store × Option DelErr :=
  match indexGet s.index hash with
  | none => (s, some .notFound)
  | some pos =>
    let s1 := deleteFlagStep s pos
    let s2 := { s1 with index := indexDel s1.index hash }
    (punchHole s2 pos, none)

/-- One frame seen by the scan: the position, the flags byte, the hash field
and the decoded plaintext handed to `iterFunc`.  The source passes the hash as
a hex string; `hash` here keeps the raw bytes (hex round-trips losslessly). -/
structure ScanItem where
  pos : BlobPos
  flags : Nat
  hash : Bytes
  blob : Bytes
deriving Repr, DecidableEq

/-- Errors aborting a scan.  `corrupt` is the `CorruptedError` raised at the
end of a pass that found mismatched frames. -/
inductive ScanErr where
  | readFailed
  | snappyFailed
  | badMagic
  | corrupt
deriving Repr, DecidableEq

/-- Outcome of a scan: the verified frames in encounter order, the corrupted
positions, and the error that aborted the pass, if any.  Items collected
before an abort are kept, because the source already handed them to
`iterFunc`. -/
structure ScanOut where
  items : List ScanItem
  corrupted : List BlobPos
  err : Option ScanErr
deriving Repr, DecidableEq

/-- The frame loop of `BlobsFileBackend.scan` over one container: at each
offset split off `hash | flags | size`, read the payload (too few bytes is an
error), skip frames whose flags byte equals `Deleted`, Snappy-decode when
compression is on, recompute the digest and compare the hex strings; matching
frames go to `iterFunc`, mismatching ones to the corrupted list.  A tail
shorter than a frame header ends the loop like the `io.EOF` break. -/
def scanFile (H : Bytes → Bytes) (sD : Bytes → Option Bytes) (compression : Bool)
    (n offset : Nat) (rest : Bytes) : ScanOut :=
  if hrest : rest.length < Overhead then ⟨[], [], none⟩
  else
    let bh := rest.take hashSize
    let flags := rest.getD hashSize 0
    let size := u32dec ((rest.drop (hashSize + 1)).take 4)
    let raw := (rest.drop Overhead).take size
    if raw.length ≠ size then ⟨[], [], some .readFailed⟩
    else if flags = DeletedFlag then
      scanFile H sD compression n (offset + Overhead + size) (rest.drop (Overhead + size))
    else
      match (if compression then sD raw else some raw) with
      | none => ⟨[], [], some .snappyFailed⟩
      | some blob =>
        let tail := scanFile H sD compression n (offset + Overhead + size)
          (rest.drop (Overhead + size))
        if hexEncode bh = hexEncode (H blob) then
          ⟨⟨⟨n, offset, size⟩, flags, bh, blob⟩ :: tail.items, tail.corrupted, tail.err⟩
        else
          ⟨tail.items, ⟨n, offset, size⟩ :: tail.corrupted, tail.err⟩
termination_by rest.length
decreasing_by
  all_goals simp only [List.length_drop]; simp only [Overhead] at hrest ⊢; omega

/-- The container loop of `scan`: walk `blobs-00000`, `blobs-00001`, … in
order; `ropen` validates the magic header before the frame loop; a mid-file
error aborts, corrupted positions accumulate across files. -/
def scanFiles (H : Bytes → Bytes) (sD : Bytes → Option Bytes) (compression : Bool) :
    List Bytes → Nat → ScanOut
  | [], _ => ⟨[], [], none⟩
  | f :: fs, n =>
    if f.take magic.length ≠ magic then ⟨[], [], some .badMagic⟩
    else
      let out := scanFile H sD compression n magic.length (f.drop magic.length)
      match out.err with
      | some e => ⟨out.items, out.corrupted, some e⟩
      | none =>
        let tail := scanFiles H sD compression fs (n + 1)
        ⟨out.items ++ tail.items, out.corrupted ++ tail.corrupted, tail.err⟩

/-- `BlobsFileBackend.reindex` (on an emptied index): scan every container,
`SetPos` each verified frame as it is found, remember the last container
number seen, and persist it unless it is still `0`.  The pass reports
`CorruptedError` after completing when mismatched frames were found; the
positions already set stay in the index, as in the source. -/
def reindex (H : Bytes → Bytes) (sD : Bytes → Option Bytes) (s : Store) :
    Store × Option ScanErr :=
  let out := scanFiles H sD s.compression s.containers 0
  let idx := out.items.foldl (fun acc it => indexSet acc it.hash it.pos) []
  let nLast := out.items.foldl (fun _ it => it.pos.n) 0
  let s1 := { s with index := idx }
  match out.err with
  | some e => (s1, some e)
  | none =>
    if out.corrupted ≠ [] then (s1, some .corrupt)
    else if nLast = 0 then (s1, none)
    else ({ s1 with indexN := nLast }, none)

/-- Error of `Enumerate2`: the start bound fails hex decoding. -/
inductive EnumErr where
  | badHex
deriving Repr, DecidableEq

/-- Position the index iterator at the first key not below the given one
(`index.db.Seek`). -/
def seekIdx (idx : Index) (key : Bytes) : Index :=
  idx.dropWhile (fun kv => lexLt (formatKey BlobPosKey kv.1) key)

/-- The emission loop of `Enumerate2`: stop when the raw index key (prefix
byte included) compares above the ASCII bytes of `end`, or when the counter
exceeds a non-zero `limit`; otherwise emit the hex hash with its recorded
size and continue. -/
def enumLoop (endStr : Bytes) (limit : Nat) : Index → Nat → List (Bytes × Nat)
  | [], _ => []
  | kv :: rest, i =>
    if lexLt endStr (formatKey BlobPosKey kv.1) ∨ (limit ≠ 0 ∧ limit < i) then []
    else (hexEncode kv.1, kv.2.size) :: enumLoop endStr limit rest (i + 1)

/-- `BlobsFileBackend.Enumerate2`: hex-decode `start`, seek the index to it
and run the emission loop with counter `0`.  The `end` bound is kept as its
raw ASCII bytes, exactly as `endBytes := []byte(end)` in the source. -/
def Enumerate2 (s : Store) (start endStr : Bytes) (limit : Nat) :
    Except EnumErr (List (Bytes × Nat)) :=
  match hexDecode start with
  | none => .error .badHex
  | some sb => .ok (enumLoop endStr limit (seekIdx s.index (formatKey BlobPosKey sb)) 0)

/-- Structural well-formedness of a store: the container count matches `n + 1`
and the append cursor sits at the end of the current container. -/
def wfB (s : Store) : Bool :=
  s.containers.length == s.n + 1 && s.size == (s.containers.getD s.n []).length

/-- Validity of one position record: the pointed-at bytes are readable, their
hash field equals the record's key, and they decode (digest verified) to the
recorded payload size. -/
def frameOkB (H : Bytes → Bytes) (sD : Bytes → Option Bytes) (compression : Bool)
    (cs : List Bytes) (k : Bytes) (p : BlobPos) : Bool :=
  match readAt cs p.n p.offset (p.size + Overhead) with
  | none => false
  | some data =>
    (data.take hashSize == k) &&
    (match decodeBlob H sD compression data with
     | .ok sb => sb.1 == p.size
     | .error _ => false)

/-- The index-frame validity invariant over every reachable position record. -/
def storeInvB (H : Bytes → Bytes) (sD : Bytes → Option Bytes) (s : Store) : Bool :=
  s.index.all (fun kv => frameOkB H sD s.compression s.containers kv.1 kv.2)

/-- Frame ranges of two position records do not overlap (or live in different
containers). -/
def rangesDisjoint (p q : BlobPos) : Bool :=
  p.n != q.n || decide (p.offset + Overhead + p.size ≤ q.offset)
    || decide (q.offset + Overhead + q.size ≤ p.offset)

/-- Pairwise frame disjointness across the index, true of every store the API
can reach. -/
def indexDisjointB : Index → Bool
  | [] => true
  | kv :: rest => rest.all (fun kv2 => rangesDisjoint kv.2 kv2.2) && indexDisjointB rest

/-- Sortedness of the index keys, the invariant the ordered KV store maintains. -/
def idxSortedB : Index → Bool
  | [] => true
  | [_] => true
  | a :: b :: rest => lexLt a.1 b.1 && idxSortedB ((b :: rest) : Index)

end BlobsFile

namespace SyncTable

open BlobsFile (Bytes lexLt)

/-- The two-level Merkle state tree of package `synctable`.  The source keeps
one running BLAKE2b instance for the root and one per two-hex-character
bucket; a running hash is determined by the byte stream written into it so
far, so the tree state records those streams.  `level1` is an association
list in bucket-creation order, standing in for the Go map. -/
structure StateTree where
  rootStream : Bytes
  level1 : List (Bytes × Bytes)
  count : Nat
deriving Repr, DecidableEq

/-- The empty tree (`NewStateTree`). -/
def StateTree.empty : StateTree := ⟨[], [], 0⟩

/-- Append a hash to its bucket's stream, creating the bucket when absent. -/
def bucketAdd : List (Bytes × Bytes) → Bytes → Bytes → List (Bytes × Bytes)
  | [], k, h => [(k, h)]
  | kv :: rest, k, h =>
    if kv.1 = k then (k, kv.2 ++ h) :: rest else kv :: bucketAdd rest k h

/-- `StateTree.Add`: route the (hex-string) hash to the bucket named by its
first two characters, write the hash into that bucket's running hash and into
the root's running hash, and bump the count. -/
def treeAdd (st : StateTree) (h : Bytes) : StateTree :=
  ⟨st.rootStream ++ h, bucketAdd st.level1 (h.take 2) h, st.count + 1⟩

/-- Feed a sequence of hashes into a fresh tree, as `generateTree` does while
ranging over the namespace's hash list. -/
def treeAddAll (l : List Bytes) : StateTree :=
  l.foldl treeAdd StateTree.empty

/-- `StateTree.Root`: the digest of the root stream. -/
def treeRoot (H : Bytes → Bytes) (st : StateTree) : Bytes := H st.rootStream

/-- `StateTree.Level1`: bucket name to bucket digest. -/
def treeLevel1 (H : Bytes → Bytes) (st : StateTree) : List (Bytes × Bytes) :=
  st.level1.map (fun kv => (kv.1, H kv.2))

/-- Insert a hash into a lexicographically sorted list. -/
def insertSorted (x : Bytes) : List Bytes → List Bytes
  | [] => [x]
  | y :: ys => if lexLt x y then x :: y :: ys else y :: insertSorted x ys

/-- Sort hashes lexicographically, the feeding order the spec mandates. -/
def sortHashes (l : List Bytes) : List Bytes := l.foldr insertSorted []

/-- A `State` summary as exchanged by the sync endpoints: namespace omitted,
root digest, count and the bucket-digest map. -/
structure PeerState where
  root : Bytes
  count : Nat
  leafs : List (Bytes × Bytes)
deriving Repr, DecidableEq

/-- Bucket lookup in a `leafs` map. -/
def lookupLeaf (leafs : List (Bytes × Bytes)) (k : Bytes) : Option Bytes :=
  (leafs.find? (fun kv => kv.1 == k)).map (·.2)

/-- Reply of the sync handler: `204 No Content`, or the three bucket lists of
the `200` JSON body. -/
inductive SyncReply where
  | noContent
  | ok (conflicted needed missing : List Bytes)
deriving Repr, DecidableEq

/-- The two leaf-comparison loops of `SyncTable.syncHandler`: the first loop
ranges over the local leafs and collects conflicting buckets
(`leafsConflict`) and buckets absent remotely (`leafsToSend`); the second
ranges over the remote leafs and collects buckets absent locally
(`leafsNeeded`).  Association-list order stands in for Go map iteration
order. -/
def syncDiff (localSt remoteSt : PeerState) :
    List Bytes × List Bytes × List Bytes :=
  let leafsConflict := (localSt.leafs.filter (fun kv =>
    match lookupLeaf remoteSt.leafs kv.1 with
    | some rh => rh != kv.2
    | none => false)).map (·.1)
  let leafsToSend := (localSt.leafs.filter (fun kv =>
    (lookupLeaf remoteSt.leafs kv.1).isNone)).map (·.1)
  let leafsNeeded := (remoteSt.leafs.filter (fun kv =>
    (lookupLeaf localSt.leafs kv.1).isNone)).map (·.1)
  (leafsConflict, leafsNeeded, leafsToSend)

/-- `SyncTable.syncHandler`; `localSt` is the receiving server's freshly
generated state, `remoteSt` the POSTed body.  Equal roots reply `204 No
Content`; otherwise the `200` body carries `leafsConflict` under
`conflicted`, `leafsNeeded` under `needed` and `leafsToSend` under
`missing`. -/
def syncHandler (localSt remoteSt : PeerState) : SyncReply :=
  if localSt.root = remoteSt.root then .noContent
  else
    let d := syncDiff localSt remoteSt
    .ok d.1 d.2.1 d.2.2

/-- ASCII bytes of a string literal. -/
def strBytes (s : String) : Bytes := s.data.map Char.toNat

/-- The JSON object of the handler's `200` reply, keyed exactly as written by
`httputil.WriteJSON`. -/
def respObj (conflicted needed missing : List Bytes) : List (Bytes × List Bytes) :=
  [(strBytes "conflicted", conflicted), (strBytes "needed", needed),
   (strBytes "missing", missing)]

/-- Lower-case an ASCII letter code. -/
def asciiLower (c : Nat) : Nat := if 65 ≤ c ∧ c ≤ 90 then c + 32 else c

/-- Field lookup of Go `encoding/json` unmarshalling: prefer the exact key,
fall back to a case-insensitive match, leave the field at its zero value when
neither exists. -/
def jsonLookup (obj : List (Bytes × List Bytes)) (key : Bytes) : Option (List Bytes) :=
  match obj.find? (fun kv => kv.1 == key) with
  | some kv => some kv.2
  | none => (obj.find? (fun kv => kv.1.map asciiLower == key.map asciiLower)).map (·.2)

/-- The decoded `SyncResp` of the sync client. -/
structure SyncResp where
  conflicted : List Bytes
  needed : List Bytes
  missing : List Bytes
deriving Repr, DecidableEq

/-- Unmarshal a `200` body into `SyncResp` along the struct's JSON tags:
`conflicted`, `nedeed` (sic) and `missing`. -/
def decodeSyncResp (obj : List (Bytes × List Bytes)) : SyncResp :=
  ⟨(jsonLookup obj (strBytes "conflicted")).getD [],
   (jsonLookup obj (strBytes "nedeed")).getD [],
   (jsonLookup obj (strBytes "missing")).getD []⟩

end SyncTable


namespace Fixtures

open BlobsFile SyncTable

/-- A concrete 32-byte digest function for witnesses: reduce entries to byte
range, then pad-or-truncate to 32 bytes.  It is deterministic, always
produces 32 genuine bytes, and is enough for the frame layout. -/
def hW (b : Bytes) : Bytes := (b.map (fun x => x % 256) ++ List.replicate 32 7).take 32

/-- Identity stand-in for the Snappy encoder in witnesses. -/
def sE0 (b : Bytes) : Bytes := b

/-- Identity stand-in for the Snappy decoder in witnesses. -/
def sD0 (b : Bytes) : Option Bytes := some b

/-- A freshly loaded store: one container holding only the magic header. -/
def s0 : Store := ⟨0, 6, [magic], [], 0, 268435456, false⟩

/-- A small blob payload. -/
def b0 : Bytes := [9, 9]

/-- The store after one successful put of `b0`. -/
def s1 : Store := (Put hW sE0 true s0 (hW b0) b0).1

/-- The store after putting `b0` twice. -/
def s2 : Store := (Put hW sE0 true s1 (hW b0) b0).1

/-- The store `s1` with one payload byte flipped on disk (offset 43 is the
first payload byte of the frame written at offset 6). -/
def sC : Store := { s1 with containers := updAt s1.containers 0 (fun f => f.set 43 99) }

/-- A store with a 50-byte container limit. -/
def s50 : Store := { s0 with maxSize := 50 }

/-- A 44-byte payload: `6 + 44 ≤ 50`, so `Put` does not roll over, yet the
resulting frame makes the container 87 bytes long. -/
def b44 : Bytes := List.replicate 44 5

/-- The store after a `Put` whose container write failed. -/
def sF : Store := (Put hW sE0 false s1 (hW [1, 2, 3]) [1, 2, 3]).1

/-- A store with three indexed hashes `aa`, `bb`, `cc` for enumeration tests. -/
def sEnum : Store :=
  { s0 with index := [([170], ⟨0, 6, 1⟩), ([187], ⟨0, 6, 1⟩), ([204], ⟨0, 6, 1⟩)] }

/-- A peer state owning only bucket `aa`. -/
def stA : PeerState := ⟨[1], 1, [(strBytes "aa", [10])]⟩

/-- A peer state owning only bucket `bb`. -/
def stB : PeerState := ⟨[2], 1, [(strBytes "bb", [11])]⟩

/-- The position record of the single frame of `s1`. -/
def posC : BlobPos := ⟨0, 6, 2⟩

/-- The corrupted frame bytes of `sC` as read back by `Get`. -/
def dataC : Bytes := ((sC.containers.getD 0 []).drop 6).take 39

/-- A 64-character hex hash `aaa…a`. -/
def aHash : Bytes := List.replicate 64 97

/-- A 64-character hex hash `bbb…b`. -/
def bHash : Bytes := List.replicate 64 98

end Fixtures

namespace BlobsFile

/-- A raw frame image: `hash | flags | size | payload`. -/
def mkFrame (bh : Bytes) (flags : Nat) (payload : Bytes) : Bytes :=
  bh ++ [flags] ++ u32le payload.length ++ payload

/-- Every entry is a genuine byte value. -/
def byteListOk (l : Bytes) : Bool := l.all (· < 256)

/-- Every container consists of genuine byte values. -/
def containersOk (cs : List Bytes) : Bool := cs.all byteListOk

end BlobsFile

namespace SyncTable

/-- The byte stream a bucket's running hash has consumed, empty when the
bucket does not exist. -/
def bucketStream (st : StateTree) (p : BlobsFile.Bytes) : BlobsFile.Bytes :=
  ((st.level1.find? (fun kv => kv.1 == p)).map (·.2)).getD []

end SyncTable

namespace BlobsFile

theorem u32dec_u32le (n : Nat) (h : n < 4294967296) : u32dec (u32le n) = n := by
  simp only [u32le, u32dec, List.getD_cons_zero, List.getD_cons_succ]
  omega

theorem encodeBlob_snd_len (H : Bytes → Bytes) (sE : Bytes → Bytes) (c : Bool)
    (b : Bytes) :
    (encodeBlob H sE c b).2.length = (encodeBlob H sE c b).1 + Overhead := by
  simp only [encodeBlob, u32le, Overhead, hashSize, List.length_append,
    List.length_take, List.length_replicate, List.length_cons, List.length_nil]
  omega

theorem encodeBlob_snd (H : Bytes → Bytes) (sE : Bytes → Bytes) (c : Bool) (b : Bytes)
    (hlen : (H b).length = hashSize) :
    (encodeBlob H sE c b).2 =
      H b ++ [0] ++ u32le (encodeBlob H sE c b).1 ++ (if c then sE b else b) := by
  simp only [encodeBlob]
  rw [← hlen, List.take_left]

theorem decodeBlob_frame (H : Bytes → Bytes) (sD : Bytes → Option Bytes) (c : Bool)
    (bh : Bytes) (f : Nat) (payload blob : Bytes)
    (hbh : bh.length = hashSize) (hsz : payload.length < 4294967296)
    (hdc : (if c then sD payload else some payload) = some blob) :
    decodeBlob H sD c (mkFrame bh f payload) =
      if H blob = bh then .ok (payload.length, blob)
      else .error .hashMismatchPanicked := by
  have hdata : mkFrame bh f payload = bh ++ [f] ++ u32le payload.length ++ payload := rfl
  have hdrop33 : (mkFrame bh f payload).drop (hashSize + 1)
      = u32le payload.length ++ payload := by
    rw [hdata, show bh ++ [f] ++ u32le payload.length ++ payload
        = (bh ++ [f]) ++ (u32le payload.length ++ payload) by simp,
      show hashSize + 1 = (bh ++ [f]).length by simp [hbh], List.drop_left]
  have hsize : u32dec (((mkFrame bh f payload).drop (hashSize + 1)).take 4)
      = payload.length := by
    rw [hdrop33, show (4 : Nat) = (u32le payload.length).length by simp [u32le],
      List.take_left, u32dec_u32le _ hsz]
  have hdrop37 : (mkFrame bh f payload).drop Overhead = payload := by
    rw [hdata, show bh ++ [f] ++ u32le payload.length ++ payload
        = (bh ++ [f] ++ u32le payload.length) ++ payload by simp,
      show Overhead = (bh ++ [f] ++ u32le payload.length).length by
        simp [hbh, u32le, Overhead, hashSize],
      List.drop_left]
  have hblob0 : (((mkFrame bh f payload).drop Overhead)
      ++ List.replicate payload.length 0).take payload.length = payload := by
    rw [hdrop37, show payload.length = payload.length from rfl]
    exact List.take_left payload _
  have htake32 : (mkFrame bh f payload).take hashSize = bh := by
    rw [hdata, show bh ++ [f] ++ u32le payload.length ++ payload
        = bh ++ ([f] ++ u32le payload.length ++ payload) by simp,
      ← hbh, List.take_left]
  simp only [decodeBlob, hsize, hblob0, htake32, hdc]

theorem encodeBlob_eq_mkFrame (H : Bytes → Bytes) (sE : Bytes → Bytes) (c : Bool)
    (b : Bytes) (hlen : (H b).length = hashSize) :
    (encodeBlob H sE c b).2 = mkFrame (H b) 0 (if c then sE b else b) := by
  rw [encodeBlob_snd H sE c b hlen]; rfl

theorem decode_encode (H : Bytes → Bytes) (sE : Bytes → Bytes)
    (sD : Bytes → Option Bytes) (c : Bool) (b : Bytes)
    (hlen : (H b).length = hashSize)
    (hdec : c = true → sD (sE b) = some b)
    (hsz : (encodeBlob H sE c b).1 < 4294967296) :
    decodeBlob H sD c (encodeBlob H sE c b).2 = .ok ((encodeBlob H sE c b).1, b) := by
  have hdc : (if c then sD (if c then sE b else b) else some (if c then sE b else b))
      = some b := by
    cases c with
    | false => rfl
    | true => simpa using hdec rfl
  rw [encodeBlob_eq_mkFrame H sE c b hlen,
    decodeBlob_frame H sD c (H b) 0 (if c then sE b else b) b hlen
      (by simpa [encodeBlob] using hsz) hdc]
  simp [encodeBlob]

theorem indexGet_indexSet_self (idx : Index) (k : Bytes) (v : BlobPos) :
    indexGet (indexSet idx k v) k = some v := by
  induction idx with
  | nil => simp [indexSet, indexGet, List.find?]
  | cons kv rest ih =>
    simp only [indexSet]
    by_cases h1 : k = kv.1
    · simp [indexGet, List.find?, h1]
    · by_cases h2 : lexLt k kv.1
      · simp [indexGet, List.find?, h1, h2]
      · have hne : (kv.1 == k) = false := by
          simp [beq_iff_eq]
          exact fun hh => h1 hh.symm
        simp only [h1, h2, if_neg, ite_false]
        simpa [indexGet, List.find?, hne] using ih

theorem mem_indexSet (idx : Index) (k : Bytes) (v : BlobPos) (kv : Bytes × BlobPos)
    (h : kv ∈ indexSet idx k v) : kv = (k, v) ∨ kv ∈ idx := by
  induction idx with
  | nil => simpa [indexSet] using h
  | cons kv0 rest ih =>
    simp only [indexSet] at h
    by_cases h1 : k = kv0.1
    · simp only [h1, if_pos rfl] at h
      rcases List.mem_cons.1 h with h | h
      · exact Or.inl (by simpa [← h1] using h)
      · exact Or.inr (List.mem_cons_of_mem _ h)
    · simp only [h1, ite_false] at h
      by_cases h2 : lexLt k kv0.1
      · simp only [h2, ite_true] at h
        rcases List.mem_cons.1 h with h | h
        · exact Or.inl h
        · exact Or.inr h
      · simp only [h2, ite_false] at h
        rcases List.mem_cons.1 h with h | h
        · exact Or.inr (by simp [h])
        · rcases ih h with h | h
          · exact Or.inl h
          · exact Or.inr (List.mem_cons_of_mem _ h)

theorem mem_indexDel (idx : Index) (k : Bytes) (kv : Bytes × BlobPos)
    (h : kv ∈ indexDel idx k) : kv ∈ idx ∧ kv.1 ≠ k := by
  rw [indexDel, List.mem_filter] at h
  exact ⟨h.1, by simpa [bne_iff_ne] using h.2⟩

theorem updAt_length (cs : List Bytes) (i : Nat) (g : Bytes → Bytes) :
    (updAt cs i g).length = cs.length := by
  induction cs generalizing i with
  | nil => simp [updAt]
  | cons c cs ih =>
    cases i with
    | zero => simp [updAt]
    | succ j => simp [updAt, ih]

theorem getD_updAt_self (cs : List Bytes) (i : Nat) (g : Bytes → Bytes)
    (h : i < cs.length) : (updAt cs i g).getD i [] = g (cs.getD i []) := by
  induction cs generalizing i with
  | nil => simp at h
  | cons c cs ih =>
    cases i with
    | zero => simp [updAt, List.getD]
    | succ j =>
      simp only [updAt, List.getD_cons_succ]
      exact ih j (by simpa using h)

theorem getD_updAt_ne (cs : List Bytes) (i j : Nat) (g : Bytes → Bytes)
    (h : j ≠ i) : (updAt cs i g).getD j [] = cs.getD j [] := by
  induction cs generalizing i j with
  | nil => simp [updAt]
  | cons c cs ih =>
    cases i with
    | zero =>
      cases j with
      | zero => exact absurd rfl h
      | succ j2 => simp [updAt, List.getD_cons_succ]
    | succ i2 =>
      cases j with
      | zero => simp [updAt, List.getD]
      | succ j2 =>
        simp only [updAt, List.getD_cons_succ]
        exact ih i2 j2 (by omega)

theorem slice_append (f t : Bytes) (o l : Nat) (h : o + l ≤ f.length) :
    ((f ++ t).drop o).take l = (f.drop o).take l := by
  rw [List.drop_append_of_le_length (by omega),
    List.take_append_of_le_length (by simp [List.length_drop]; omega)]

theorem slice_eq_of_agree (x y : Bytes) (o l : Nat) (hlen : y.length = x.length)
    (h : ∀ j, o ≤ j → j < o + l → y[j]? = x[j]?) :
    (y.drop o).take l = (x.drop o).take l := by
  apply List.ext_getElem?
  intro i
  rcases lt_or_ge i l with hi | hi
  · simp only [List.getElem?_take, hi, if_pos, List.getElem?_drop]
    exact h (o + i) (by omega) (by omega)
  · simp [List.getElem?_take, Nat.not_lt.2 hi]

theorem getD_snoc_self (cs : List Bytes) (x : Bytes) :
    (cs ++ [x]).getD cs.length [] = x := by
  induction cs with
  | nil => simp [List.getD]
  | cons c cs ih => simpa [List.getD_cons_succ] using ih

theorem wf_rollover (s : Store) (h : wfB s = true) : wfB (rollover s) = true := by
  simp only [wfB, rollover, Bool.and_eq_true, beq_iff_eq] at h ⊢
  obtain ⟨h1, _⟩ := h
  refine ⟨by simp [h1], ?_⟩
  have hm : (s.containers ++ [magic]).getD (s.n + 1) [] = magic := by
    rw [← h1]
    exact getD_snoc_self _ _
  rw [hm]

theorem put_true_state (H : Bytes → Bytes) (sE : Bytes → Bytes) (s : Store)
    (hash b : Bytes) :
    Put H sE true s hash b =
      (let s1 := if s.size + (encodeBlob H sE s.compression b).1 > s.maxSize
        then rollover s else s
      ({ s1 with
          index := indexSet s1.index hash
            ⟨s1.n, s1.size, (encodeBlob H sE s.compression b).1⟩
          containers := updAt s1.containers s1.n
            (fun f => f ++ (encodeBlob H sE s.compression b).2)
          size := s1.size + (encodeBlob H sE s.compression b).2.length }, none)) := by
  by_cases hroll : s.size + (encodeBlob H sE s.compression b).1 > s.maxSize <;>
    simp [Put, hroll]

theorem rollover_compression (s : Store) : (rollover s).compression = s.compression := rfl

theorem wf_put (H : Bytes → Bytes) (sE : Bytes → Bytes) (s : Store) (hash b : Bytes)
    (hwf : wfB s = true) : wfB (Put H sE true s hash b).1 = true := by
  rw [put_true_state]
  have hwf1 : wfB (if s.size + (encodeBlob H sE s.compression b).1 > s.maxSize
      then rollover s else s) = true := by
    split
    · exact wf_rollover s hwf
    · exact hwf
  generalize (if s.size + (encodeBlob H sE s.compression b).1 > s.maxSize
      then rollover s else s) = s1 at hwf1 ⊢
  simp only [wfB, Bool.and_eq_true, beq_iff_eq] at hwf1 ⊢
  obtain ⟨h1, h2⟩ := hwf1
  have hn : s1.n < s1.containers.length := by omega
  refine ⟨by simpa [updAt_length] using h1, ?_⟩
  rw [getD_updAt_self _ _ _ hn, List.length_append, ← h2]

theorem get_put (H : Bytes → Bytes) (sE : Bytes → Bytes) (sD : Bytes → Option Bytes)
    (s : Store) (hash b : Bytes)
    (hwf : wfB s = true) (hh : hash = H b) (hlen : (H b).length = hashSize)
    (hdec : s.compression = true → sD (sE b) = some b)
    (hsz : (encodeBlob H sE s.compression b).1 < 4294967296) :
    Get H sD (Put H sE true s hash b).1 hash = .ok b := by
  rw [put_true_state]
  have hwf1 : wfB (if s.size + (encodeBlob H sE s.compression b).1 > s.maxSize
      then rollover s else s) = true := by
    split
    · exact wf_rollover s hwf
    · exact hwf
  have hc1 : (if s.size + (encodeBlob H sE s.compression b).1 > s.maxSize
      then rollover s else s).compression = s.compression := by
    split <;> rfl
  generalize (if s.size + (encodeBlob H sE s.compression b).1 > s.maxSize
      then rollover s else s) = s1 at hwf1 hc1 ⊢
  simp only [wfB, Bool.and_eq_true, beq_iff_eq] at hwf1
  obtain ⟨h1, h2⟩ := hwf1
  have hn : s1.n < s1.containers.length := by omega
  simp only [Get, indexGet_indexSet_self]
  have hfile : (updAt s1.containers s1.n
      (fun f => f ++ (encodeBlob H sE s.compression b).2)).getD s1.n []
      = s1.containers.getD s1.n [] ++ (encodeBlob H sE s.compression b).2 :=
    getD_updAt_self _ _ _ hn
  have hlen2 := encodeBlob_snd_len H sE s.compression b
  have hread : readAt (updAt s1.containers s1.n
      (fun f => f ++ (encodeBlob H sE s.compression b).2)) s1.n s1.size
      ((encodeBlob H sE s.compression b).1 + Overhead)
      = some ((encodeBlob H sE s.compression b).2) := by
    simp only [readAt, hfile]
    rw [if_pos (by rw [List.length_append, ← h2]; omega)]
    rw [← hlen2, h2, List.drop_left, List.take_length]
  simp only [hread]
  rw [← hc1] at hdec hsz ⊢
  rw [decode_encode H sE sD s1.compression b hlen hdec hsz]
  simp

theorem put_put_get (H : Bytes → Bytes) (sE : Bytes → Bytes) (sD : Bytes → Option Bytes)
    (s : Store) (hash b : Bytes)
    (hwf : wfB s = true) (hh : hash = H b) (hlen : (H b).length = hashSize)
    (hdec : s.compression = true → sD (sE b) = some b)
    (hsz : (encodeBlob H sE s.compression b).1 < 4294967296) :
    Get H sD (Put H sE true (Put H sE true s hash b).1 hash b).1 hash = .ok b := by
  have hc : (Put H sE true s hash b).1.compression = s.compression := by
    rw [put_true_state]
    split <;> rfl
  apply get_put H sE sD _ hash b (wf_put H sE s hash b hwf) hh hlen
  · rw [hc]; exact hdec
  · rw [hc]; exact hsz


theorem getD_append_left (cs : List Bytes) (x : Bytes) (j : Nat)
    (h : j < cs.length) : (cs ++ [x]).getD j [] = cs.getD j [] := by
  induction cs generalizing j with
  | nil => simp at h
  | cons c cs ih =>
    cases j with
    | zero => simp [List.getD]
    | succ j2 =>
      simp only [List.cons_append, List.getD_cons_succ]
      exact ih j2 (by simpa using h)

theorem put_true_roll (H : Bytes → Bytes) (sE : Bytes → Bytes) (s : Store)
    (hash b : Bytes)
    (hroll : s.size + (encodeBlob H sE s.compression b).1 > s.maxSize) :
    Put H sE true s hash b =
      ({ s with
          n := s.n + 1
          size := magic.length + (encodeBlob H sE s.compression b).2.length
          containers := updAt (s.containers ++ [magic]) (s.n + 1)
            (fun f => f ++ (encodeBlob H sE s.compression b).2)
          index := indexSet s.index hash
            ⟨s.n + 1, magic.length, (encodeBlob H sE s.compression b).1⟩
          indexN := s.n + 1 }, none) := by
  simp [Put, hroll, rollover]

theorem put_true_noroll (H : Bytes → Bytes) (sE : Bytes → Bytes) (s : Store)
    (hash b : Bytes)
    (hroll : ¬ s.size + (encodeBlob H sE s.compression b).1 > s.maxSize) :
    Put H sE true s hash b =
      ({ s with
          size := s.size + (encodeBlob H sE s.compression b).2.length
          containers := updAt s.containers s.n
            (fun f => f ++ (encodeBlob H sE s.compression b).2)
          index := indexSet s.index hash
            ⟨s.n, s.size, (encodeBlob H sE s.compression b).1⟩ }, none) := by
  simp [Put, hroll]

theorem put_rollover_state (H : Bytes → Bytes) (sE : Bytes → Bytes) (s : Store)
    (hash b : Bytes) (hwf : wfB s = true)
    (hroll : s.size + (encodeBlob H sE s.compression b).1 > s.maxSize) :
    (Put H sE true s hash b).1.n = s.n + 1 ∧
    (Put H sE true s hash b).1.containers.length = s.n + 2 ∧
    (Put H sE true s hash b).1.containers.getD (s.n + 1) []
      = magic ++ (encodeBlob H sE s.compression b).2 ∧
    (Put H sE true s hash b).1.indexN = s.n + 1 ∧
    indexGet (Put H sE true s hash b).1.index hash
      = some ⟨s.n + 1, magic.length, (encodeBlob H sE s.compression b).1⟩ := by
  simp only [wfB, Bool.and_eq_true, beq_iff_eq] at hwf
  obtain ⟨h1, _⟩ := hwf
  rw [put_true_roll H sE s hash b hroll]
  have hgetD : (s.containers ++ [magic]).getD (s.n + 1) [] = magic := by
    rw [← h1]; exact getD_snoc_self _ _
  refine ⟨rfl, ?_, ?_, rfl, indexGet_indexSet_self _ _ _⟩
  · simp [updAt_length, h1]
  · rw [getD_updAt_self _ _ _ (by simp [h1]), hgetD]

theorem put_noroll_state (H : Bytes → Bytes) (sE : Bytes → Bytes) (s : Store)
    (hash b : Bytes) (hwf : wfB s = true)
    (hroll : ¬ s.size + (encodeBlob H sE s.compression b).1 > s.maxSize) :
    (Put H sE true s hash b).1.n = s.n ∧
    (Put H sE true s hash b).1.containers.length = s.n + 1 ∧
    (Put H sE true s hash b).1.containers.getD s.n []
      = s.containers.getD s.n [] ++ (encodeBlob H sE s.compression b).2 ∧
    indexGet (Put H sE true s hash b).1.index hash
      = some ⟨s.n, s.size, (encodeBlob H sE s.compression b).1⟩ := by
  simp only [wfB, Bool.and_eq_true, beq_iff_eq] at hwf
  obtain ⟨h1, _⟩ := hwf
  rw [put_true_noroll H sE s hash b hroll]
  refine ⟨rfl, by simp [updAt_length, h1], ?_, indexGet_indexSet_self _ _ _⟩
  exact getD_updAt_self _ _ _ (by omega)

theorem decodeBlob_ok_digest (H : Bytes → Bytes) (sD : Bytes → Option Bytes)
    (c : Bool) (data : Bytes) (sb : Nat × Bytes)
    (h : decodeBlob H sD c data = .ok sb) : H sb.2 = data.take hashSize := by
  simp only [decodeBlob] at h
  split at h
  · exact absurd h (by simp)
  · split at h
    · cases h
      assumption
    · exact absurd h (by simp)

theorem get_ok_sound (H : Bytes → Bytes) (sD : Bytes → Option Bytes) (s : Store)
    (h blob : Bytes) (hok : Get H sD s h = .ok blob) :
    ∃ pos data, indexGet s.index h = some pos ∧
      readAt s.containers pos.n pos.offset (pos.size + Overhead) = some data ∧
      H blob = data.take hashSize := by
  rcases e1 : indexGet s.index h with _ | pos
  · simp only [Get, e1] at hok
    exact absurd hok (by simp)
  rcases e2 : readAt s.containers pos.n pos.offset (pos.size + Overhead) with _ | data
  · simp only [Get, e1, e2] at hok
    exact absurd hok (by simp)
  rcases e3 : decodeBlob H sD s.compression data with e | sb
  · simp only [Get, e1, e2, e3] at hok
    exact absurd hok (by simp)
  refine ⟨pos, data, rfl, e2, ?_⟩
  simp only [Get, e1, e2, e3] at hok
  have hblob : sb.2 = blob := by
    by_cases hsz : sb.1 ≠ pos.size
    · rw [if_pos hsz] at hok
      exact absurd hok (by simp)
    · rw [if_neg hsz] at hok
      cases hok
      rfl
  rw [← hblob]
  exact decodeBlob_ok_digest H sD s.compression data sb e3

theorem get_decode_error (H : Bytes → Bytes) (sD : Bytes → Option Bytes) (s : Store)
    (h : Bytes) (pos : BlobPos) (data : Bytes) (e : GetErr)
    (h1 : indexGet s.index h = some pos)
    (h2 : readAt s.containers pos.n pos.offset (pos.size + Overhead) = some data)
    (h3 : decodeBlob H sD s.compression data = .error e) :
    Get H sD s h = .error e := by
  simp only [Get, h1, h2, h3]

theorem decodeBlob_mismatch (H : Bytes → Bytes) (sD : Bytes → Option Bytes)
    (c : Bool) (data blob : Bytes)
    (hdc : (if c
      then sD (((data.drop Overhead)
        ++ List.replicate (u32dec ((data.drop (hashSize + 1)).take 4)) 0).take
          (u32dec ((data.drop (hashSize + 1)).take 4)))
      else some (((data.drop Overhead)
        ++ List.replicate (u32dec ((data.drop (hashSize + 1)).take 4)) 0).take
          (u32dec ((data.drop (hashSize + 1)).take 4)))) = some blob)
    (hne : H blob ≠ data.take hashSize) :
    decodeBlob H sD c data = .error .hashMismatchPanicked := by
  simp only [decodeBlob, hdc]
  rw [if_neg hne]

theorem readAt_some_bound (cs : List Bytes) (n off len : Nat) (data : Bytes)
    (h : readAt cs n off len = some data) : off + len ≤ (cs.getD n []).length := by
  simp only [readAt] at h
  split at h
  · assumption
  · exact absurd h (by simp)

theorem frameOkB_readAt_congr (H : Bytes → Bytes) (sD : Bytes → Option Bytes)
    (c : Bool) (cs cs' : List Bytes) (k : Bytes) (p : BlobPos)
    (h : readAt cs' p.n p.offset (p.size + Overhead)
      = readAt cs p.n p.offset (p.size + Overhead)) :
    frameOkB H sD c cs' k p = frameOkB H sD c cs k p := by
  simp only [frameOkB, h]

theorem updAt_ge (cs : List Bytes) (i : Nat) (g : Bytes → Bytes)
    (h : cs.length ≤ i) : updAt cs i g = cs := by
  induction cs generalizing i with
  | nil => simp [updAt]
  | cons c cs ih =>
    cases i with
    | zero => simp at h
    | succ j => simp only [updAt, ih j (by simpa using h)]

theorem readAt_updAt_append (cs : List Bytes) (i : Nat) (t : Bytes) (m off len : Nat)
    (hb : off + len ≤ (cs.getD m []).length) :
    readAt (updAt cs i (fun f => f ++ t)) m off len = readAt cs m off len := by
  by_cases hmi : m = i
  · subst hmi
    by_cases hlt : m < cs.length
    · have hfile := getD_updAt_self cs m (fun f => f ++ t) hlt
      simp only [readAt, hfile]
      rw [if_pos (by simp only [List.length_append]; omega), if_pos hb,
        slice_append _ _ _ _ hb]
    · rw [updAt_ge cs m _ (by omega)]
  · simp only [readAt, getD_updAt_ne cs i m _ hmi]

theorem getD_nil_of_ge (cs : List Bytes) (m : Nat) (h : cs.length ≤ m) :
    cs.getD m [] = [] := by
  rw [List.getD_eq_getElem?_getD, List.getElem?_eq_none h]
  rfl

theorem readAt_snoc (cs : List Bytes) (x : Bytes) (m off len : Nat)
    (hb : off + len ≤ (cs.getD m []).length) (hlen : 0 < len) :
    readAt (cs ++ [x]) m off len = readAt cs m off len := by
  have hm : m < cs.length := by
    by_contra hge
    rw [getD_nil_of_ge cs m (by omega)] at hb
    simp at hb
    omega
  simp only [readAt, getD_append_left cs x m hm]

theorem readAt_fresh (cs : List Bytes) (i : Nat) (t : Bytes) (h1 : i < cs.length) :
    readAt (updAt cs i (fun f => f ++ t)) i (cs.getD i []).length t.length = some t := by
  simp only [readAt, getD_updAt_self cs i _ h1]
  rw [if_pos (by simp), List.drop_left, List.take_length]

theorem mkFrame_take_hash (bh : Bytes) (f : Nat) (payload : Bytes)
    (hbh : bh.length = hashSize) : (mkFrame bh f payload).take hashSize = bh := by
  rw [mkFrame, show bh ++ [f] ++ u32le payload.length ++ payload
      = bh ++ ([f] ++ u32le payload.length ++ payload) by simp,
    ← hbh, List.take_left]

theorem frameOk_fresh (H : Bytes → Bytes) (sE : Bytes → Bytes)
    (sD : Bytes → Option Bytes) (c : Bool) (cs : List Bytes) (i : Nat) (b : Bytes)
    (hlen : (H b).length = hashSize)
    (hdec : c = true → sD (sE b) = some b)
    (hsz : (encodeBlob H sE c b).1 < 4294967296)
    (h1 : i < cs.length) :
    frameOkB H sD c (updAt cs i (fun f => f ++ (encodeBlob H sE c b).2)) (H b)
      ⟨i, (cs.getD i []).length, (encodeBlob H sE c b).1⟩ = true := by
  have hread := readAt_fresh cs i (encodeBlob H sE c b).2 h1
  rw [encodeBlob_snd_len H sE c b] at hread
  simp only [frameOkB, hread]
  rw [show (encodeBlob H sE c b).2.take hashSize = H b by
    rw [encodeBlob_eq_mkFrame H sE c b hlen]
    exact mkFrame_take_hash _ _ _ hlen]
  simp only [beq_self_eq_true, Bool.true_and]
  rw [decode_encode H sE sD c b hlen hdec hsz]
  simp

theorem storeInv_put (H : Bytes → Bytes) (sE : Bytes → Bytes)
    (sD : Bytes → Option Bytes) (s : Store) (hash b : Bytes)
    (hlen : (H b).length = hashSize) (hh : hash = H b)
    (hdec : s.compression = true → sD (sE b) = some b)
    (hsz : (encodeBlob H sE s.compression b).1 < 4294967296)
    (hwf : wfB s = true) (hinv : storeInvB H sD s = true) :
    storeInvB H sD (Put H sE true s hash b).1 = true := by
  have hwf2 := hwf
  simp only [wfB, Bool.and_eq_true, beq_iff_eq] at hwf2
  obtain ⟨h1, h2⟩ := hwf2
  simp only [storeInvB, List.all_eq_true] at hinv
  have hold : ∀ kv : Bytes × BlobPos, kv ∈ s.index →
      kv.2.n < s.containers.length ∧
      kv.2.offset + (kv.2.size + Overhead) ≤ (s.containers.getD kv.2.n []).length := by
    intro kv hkv
    have hfr := hinv kv hkv
    simp only [frameOkB] at hfr
    rcases e : readAt s.containers kv.2.n kv.2.offset (kv.2.size + Overhead)
      with _ | data
    · rw [e] at hfr
      simp at hfr
    have hb := readAt_some_bound _ _ _ _ _ e
    refine ⟨?_, hb⟩
    by_contra hge
    rw [getD_nil_of_ge _ _ (by omega)] at hb
    simp only [List.length_nil, Nat.le_zero] at hb
    simp only [Overhead] at hb
    omega
  by_cases hroll : s.size + (encodeBlob H sE s.compression b).1 > s.maxSize
  · rw [put_true_roll H sE s hash b hroll]
    simp only [storeInvB, List.all_eq_true]
    intro kv hkv
    rcases mem_indexSet _ _ _ _ hkv with hnew | hmem
    · subst hnew
      have hfr := frameOk_fresh H sE sD s.compression (s.containers ++ [magic])
        (s.n + 1) b hlen hdec hsz (by simp [h1])
      rw [show (s.containers ++ [magic]).getD (s.n + 1) [] = magic by
        rw [← h1]; exact getD_snoc_self _ _] at hfr
      rw [hh]
      exact hfr
    · have ⟨hn, hbnd⟩ := hold kv hmem
      have hfr := hinv kv hmem
      have hb2 : kv.2.offset + (kv.2.size + Overhead)
          ≤ ((s.containers ++ [magic]).getD kv.2.n []).length := by
        rw [getD_append_left _ _ _ hn]
        exact hbnd
      have heq : readAt (updAt (s.containers ++ [magic]) (s.n + 1)
            (fun f => f ++ (encodeBlob H sE s.compression b).2))
          kv.2.n kv.2.offset (kv.2.size + Overhead)
          = readAt s.containers kv.2.n kv.2.offset (kv.2.size + Overhead) := by
        rw [readAt_updAt_append _ _ _ _ _ _ hb2,
          readAt_snoc _ _ _ _ _ hbnd (by simp [Overhead])]
      rw [frameOkB_readAt_congr H sD s.compression s.containers _ kv.1 kv.2 heq]
      exact hfr
  · rw [put_true_noroll H sE s hash b hroll]
    simp only [storeInvB, List.all_eq_true]
    intro kv hkv
    rcases mem_indexSet _ _ _ _ hkv with hnew | hmem
    · subst hnew
      have hfr := frameOk_fresh H sE sD s.compression s.containers s.n b
        hlen hdec hsz (by omega)
      rw [← h2] at hfr
      rw [hh]
      exact hfr
    · have ⟨_, hbnd⟩ := hold kv hmem
      have hfr := hinv kv hmem
      have heq : readAt (updAt s.containers s.n
            (fun f => f ++ (encodeBlob H sE s.compression b).2))
          kv.2.n kv.2.offset (kv.2.size + Overhead)
          = readAt s.containers kv.2.n kv.2.offset (kv.2.size + Overhead) :=
        readAt_updAt_append _ _ _ _ _ _ hbnd
      rw [frameOkB_readAt_congr H sD s.compression s.containers _ kv.1 kv.2 heq]
      exact hfr

theorem zeroRange_length (o n : Nat) (l : Bytes) :
    (zeroRange o n l).length = l.length := by
  simp [zeroRange, List.enum_length]

theorem getElem?_zeroRange_out (o n : Nat) (l : Bytes) (j : Nat)
    (h : j < o ∨ o + n ≤ j) : (zeroRange o n l)[j]? = l[j]? := by
  simp only [zeroRange, List.getElem?_map, List.getElem?_enum]
  cases l[j]? with
  | none => rfl
  | some v =>
    simp only [Option.map_some']
    rw [if_neg (by omega)]

theorem updAt_updAt (cs : List Bytes) (i : Nat) (g1 g2 : Bytes → Bytes) :
    updAt (updAt cs i g1) i g2 = updAt cs i (fun f => g2 (g1 f)) := by
  induction cs generalizing i with
  | nil => simp [updAt]
  | cons c cs ih =>
    cases i with
    | zero => simp [updAt]
    | succ j => simp [updAt, ih]

theorem readAt_mod_frame (cs : List Bytes) (i : Nat) (g : Bytes → Bytes)
    (lo hi m off len : Nat)
    (hglen : ∀ f, (g f).length = f.length)
    (hgpt : ∀ f j, j < lo ∨ hi ≤ j → (g f)[j]? = f[j]?)
    (hdis : m ≠ i ∨ off + len ≤ lo ∨ hi ≤ off) :
    readAt (updAt cs i g) m off len = readAt cs m off len := by
  by_cases hmi : m = i
  · subst hmi
    by_cases hlt : m < cs.length
    · have hfile := getD_updAt_self cs m g hlt
      have hrange : off + len ≤ lo ∨ hi ≤ off := by
        rcases hdis with hd | hd
        · exact absurd rfl hd
        · exact hd
      simp only [readAt, hfile, hglen]
      have hslice : ((g (cs.getD m [])).drop off).take len
          = ((cs.getD m []).drop off).take len := by
        apply slice_eq_of_agree _ _ _ _ (hglen _)
        intro j hj1 hj2
        apply hgpt
        omega
      rw [hslice]
    · rw [updAt_ge cs m _ (by omega)]
  · simp only [readAt, getD_updAt_ne cs i m _ hmi]

theorem rangesDisjoint_symm (p q : BlobPos) (h : rangesDisjoint p q = true) :
    rangesDisjoint q p = true := by
  simp only [rangesDisjoint, Bool.or_eq_true, bne_iff_ne, ne_eq,
    decide_eq_true_eq] at h ⊢
  omega

theorem indexDisjoint_mem (idx : Index) (hd : indexDisjointB idx = true)
    (kv1 kv2 : Bytes × BlobPos) (h1 : kv1 ∈ idx) (h2 : kv2 ∈ idx)
    (hne : kv1.1 ≠ kv2.1) : rangesDisjoint kv1.2 kv2.2 = true := by
  induction idx with
  | nil => simp at h1
  | cons a rest ih =>
    simp only [indexDisjointB, Bool.and_eq_true, List.all_eq_true] at hd
    obtain ⟨hall, hrest⟩ := hd
    rcases List.mem_cons.1 h1 with e1 | m1
    · rcases List.mem_cons.1 h2 with e2 | m2
      · subst e1
        subst e2
        exact absurd rfl hne
      · subst e1
        exact hall kv2 m2
    · rcases List.mem_cons.1 h2 with e2 | m2
      · subst e2
        exact rangesDisjoint_symm _ _ (hall kv1 m1)
      · exact ih hrest m1 m2

theorem indexGet_some_mem (idx : Index) (k : Bytes) (pos : BlobPos)
    (h : indexGet idx k = some pos) :
    ∃ kv, kv ∈ idx ∧ kv.1 = k ∧ kv.2 = pos := by
  simp only [indexGet, Option.map_eq_some'] at h
  obtain ⟨kv, hfind, hsnd⟩ := h
  exact ⟨kv, List.mem_of_find?_eq_some hfind,
    by simpa using List.find?_some hfind, hsnd⟩

theorem delete_found (s : Store) (h : Bytes) (pos : BlobPos)
    (hfind : indexGet s.index h = some pos) :
    Delete s h = ({ s with
        containers := updAt s.containers pos.n
          (fun f => zeroRange (pos.offset + Overhead) pos.size
            (f.set (pos.offset + hashSize) DeletedFlag))
        index := indexDel s.index h }, none) := by
  simp only [Delete, hfind, deleteFlagStep, punchHole, updAt_updAt]

theorem storeInv_delete (H : Bytes → Bytes) (sD : Bytes → Option Bytes)
    (s : Store) (h : Bytes)
    (hinv : storeInvB H sD s = true) (hdisj : indexDisjointB s.index = true) :
    storeInvB H sD (Delete s h).1 = true := by
  rcases e : indexGet s.index h with _ | pos
  · simp only [Delete, e]
    exact hinv
  · rw [delete_found s h pos e]
    simp only [storeInvB, List.all_eq_true] at hinv ⊢
    intro kv hkv
    have ⟨hmem, hne⟩ := mem_indexDel _ _ _ hkv
    have hfr := hinv kv hmem
    obtain ⟨kv0, hkv0mem, hk0, hp0⟩ := indexGet_some_mem s.index h pos e
    have hdis : rangesDisjoint kv.2 pos = true := by
      rw [← hp0]
      exact indexDisjoint_mem s.index hdisj kv kv0 hmem hkv0mem
        (by rw [hk0]; exact hne)
    simp only [rangesDisjoint, Bool.or_eq_true, bne_iff_ne, ne_eq,
      decide_eq_true_eq] at hdis
    have heq : readAt (updAt s.containers pos.n
          (fun f => zeroRange (pos.offset + Overhead) pos.size
            (f.set (pos.offset + hashSize) DeletedFlag)))
        kv.2.n kv.2.offset (kv.2.size + Overhead)
        = readAt s.containers kv.2.n kv.2.offset (kv.2.size + Overhead) := by
      apply readAt_mod_frame s.containers pos.n _ pos.offset
        (pos.offset + Overhead + pos.size) kv.2.n kv.2.offset (kv.2.size + Overhead)
      · intro f
        rw [zeroRange_length, List.length_set]
      · intro f j hj
        rw [getElem?_zeroRange_out _ _ _ _ (by simp [Overhead] at hj ⊢; omega),
          List.getElem?_set_ne (by simp [Overhead, hashSize] at hj ⊢; omega)]
      · simp only [Overhead] at hdis ⊢
        omega
    rw [frameOkB_readAt_congr H sD s.compression s.containers _ kv.1 kv.2 heq]
    exact hfr

theorem hexDigit_inj (d1 d2 : Nat) (h1 : d1 < 16) (h2 : d2 < 16)
    (h : hexDigit d1 = hexDigit d2) : d1 = d2 := by
  simp only [hexDigit] at h
  split at h <;> split at h <;> omega

theorem hexEncode_inj (a b : Bytes) (ha : byteListOk a = true)
    (hb : byteListOk b = true) (h : hexEncode a = hexEncode b) : a = b := by
  induction a generalizing b with
  | nil =>
    cases b with
    | nil => rfl
    | cons y ys => simp [hexEncode] at h
  | cons x xs ih =>
    cases b with
    | nil => simp [hexEncode] at h
    | cons y ys =>
      simp only [hexEncode, List.cons.injEq] at h
      obtain ⟨e1, e2, e3⟩ := h
      simp only [byteListOk, List.all_cons, Bool.and_eq_true,
        decide_eq_true_eq] at ha hb
      have ha2 : byteListOk xs = true := ha.2
      have hb2 : byteListOk ys = true := hb.2
      have hx : x % 256 = x := Nat.mod_eq_of_lt ha.1
      have hy : y % 256 = y := Nat.mod_eq_of_lt hb.1
      rw [hx] at e1
      rw [hy] at e1
      have d1 := hexDigit_inj (x / 16) (y / 16) (by omega) (by omega) e1
      have d2 := hexDigit_inj (x % 16) (y % 16) (by omega) (by omega) e2
      have hxy : x = y := by omega
      rw [hxy, ih ys ha2 hb2 e3]

theorem byteListOk_take (l : Bytes) (n : Nat) (h : byteListOk l = true) :
    byteListOk (l.take n) = true := by
  simp only [byteListOk, List.all_eq_true, decide_eq_true_eq] at h ⊢
  intro x hx
  exact h x ((List.take_prefix n l).subset hx)

theorem byteListOk_drop (l : Bytes) (n : Nat) (h : byteListOk l = true) :
    byteListOk (l.drop n) = true := by
  simp only [byteListOk, List.all_eq_true, decide_eq_true_eq] at h ⊢
  intro x hx
  exact h x ((List.drop_suffix n l).subset hx)

theorem frameOk_head (H : Bytes → Bytes) (sD : Bytes → Option Bytes) (c : Bool)
    (cs : List Bytes) (n off : Nat) (rest blob : Bytes)
    (hrestdef : rest = (cs.getD n []).drop off)
    (hbyteH : ∀ x, byteListOk (H x) = true)
    (hfileOk : byteListOk (cs.getD n []) = true)
    (h37 : Overhead ≤ rest.length)
    (hraw : ((rest.drop Overhead).take
        (u32dec ((rest.drop (hashSize + 1)).take 4))).length
      = u32dec ((rest.drop (hashSize + 1)).take 4))
    (hdecomp : (if c then sD ((rest.drop Overhead).take
          (u32dec ((rest.drop (hashSize + 1)).take 4)))
        else some ((rest.drop Overhead).take
          (u32dec ((rest.drop (hashSize + 1)).take 4)))) = some blob)
    (hhex : hexEncode (rest.take hashSize) = hexEncode (H blob)) :
    frameOkB H sD c cs (rest.take hashSize)
      ⟨n, off, u32dec ((rest.drop (hashSize + 1)).take 4)⟩ = true := by
  set size := u32dec ((rest.drop (hashSize + 1)).take 4) with hsizedef
  have hsz2 : Overhead + size ≤ rest.length := by
    rw [List.length_take, List.length_drop] at hraw
    omega
  have hoffb : off ≤ (cs.getD n []).length := by
    by_contra hgt
    rw [hrestdef, List.drop_eq_nil_of_le (by omega)] at h37
    simp [Overhead] at h37
  have hrlen : rest.length = (cs.getD n []).length - off := by
    rw [hrestdef, List.length_drop]
  have hbound : off + (size + Overhead) ≤ (cs.getD n []).length := by omega
  have hdata : readAt cs n off (size + Overhead)
      = some (rest.take (size + Overhead)) := by
    simp only [readAt]
    rw [if_pos hbound, ← hrestdef]
  have htakeh : (rest.take (size + Overhead)).take hashSize = rest.take hashSize := by
    rw [List.take_take, Nat.min_eq_left (by simp only [hashSize, Overhead]; omega)]
  have hdrop33 : ((rest.take (size + Overhead)).drop (hashSize + 1)).take 4
      = (rest.drop (hashSize + 1)).take 4 := by
    rw [List.drop_take, List.take_take]
    congr 1
    simp only [hashSize, Overhead]
    omega
  have hdrop37 : (rest.take (size + Overhead)).drop Overhead
      = (rest.drop Overhead).take size := by
    rw [List.drop_take]
    congr 1
  have hblob0 : (((rest.take (size + Overhead)).drop Overhead)
      ++ List.replicate size 0).take size = (rest.drop Overhead).take size := by
    rw [hdrop37]
    exact List.take_left' hraw
  have hbh : rest.take hashSize = H blob := by
    apply hexEncode_inj _ _ ?_ (hbyteH blob) hhex
    rw [hrestdef]
    exact byteListOk_take _ _ (byteListOk_drop _ _ hfileOk)
  simp only [frameOkB, hdata, htakeh, beq_self_eq_true, Bool.true_and]
  simp only [decodeBlob, hdrop33, ← hsizedef, hblob0, hdecomp, htakeh]
  rw [if_pos hbh.symm]
  simp

theorem scanFile_items_ok (H : Bytes → Bytes) (sD : Bytes → Option Bytes)
    (c : Bool) (cs : List Bytes) (n : Nat)
    (hbyteH : ∀ x, byteListOk (H x) = true)
    (hfileOk : byteListOk (cs.getD n []) = true) :
    ∀ k off item, (cs.getD n []).length ≤ off + k →
      item ∈ (scanFile H sD c n off ((cs.getD n []).drop off)).items →
      frameOkB H sD c cs item.hash item.pos = true := by
  intro k
  induction k using Nat.strong_induction_on with
  | _ k ih =>
    intro off item hk hitem
    rw [scanFile] at hitem
    split at hitem
    · simp at hitem
    · rename_i hlt
      set rest := (cs.getD n []).drop off with hrestdef
      set size := u32dec ((rest.drop (hashSize + 1)).take 4) with hsizedef
      clear_value rest
      have hrlen : rest.length = (cs.getD n []).length - off := by
        rw [hrestdef, List.length_drop]
      by_cases hraw : ((rest.drop Overhead).take size).length ≠ size
      · rw [if_pos hraw] at hitem
        simp at hitem
      · rw [if_neg hraw] at hitem
        have hraw2 : ((rest.drop Overhead).take size).length = size := by
          by_contra hne
          exact hraw hne
        have hsz2 : Overhead + size ≤ rest.length := by
          rw [List.length_take, List.length_drop] at hraw2
          omega
        have hk37 : Overhead ≤ rest.length := by omega
        have hdropstep : rest.drop (Overhead + size)
            = (cs.getD n []).drop (off + Overhead + size) := by
          rw [hrestdef, List.drop_drop]
          congr 1
          omega
        have hrec : ∀ it : ScanItem, it ∈ (scanFile H sD c n (off + Overhead + size)
            ((cs.getD n []).drop (off + Overhead + size))).items →
            frameOkB H sD c cs it.hash it.pos = true := by
          intro it hit
          exact ih (k - (Overhead + size)) (by simp only [Overhead] at hsz2 hk37 ⊢; omega)
            (off + Overhead + size) it
            (by simp only [Overhead] at hsz2 hrlen ⊢; omega) hit
        by_cases hdel : rest.getD hashSize 0 = DeletedFlag
        · rw [if_pos hdel, hdropstep] at hitem
          exact hrec item hitem
        · rw [if_neg hdel] at hitem
          rcases hdecomp : (if c then sD ((rest.drop Overhead).take size)
              else some ((rest.drop Overhead).take size)) with _ | blob
          · simp only [hdecomp] at hitem
            simp at hitem
          · simp only [hdecomp] at hitem
            by_cases hhex : hexEncode (rest.take hashSize)
                = hexEncode (H blob)
            · rw [if_pos hhex, hdropstep] at hitem
              simp only [List.mem_cons] at hitem
              rcases hitem with hhead | htail
              · subst hhead
                exact frameOk_head H sD c cs n off rest blob hrestdef hbyteH
                  hfileOk hk37 hraw2 hdecomp hhex
              · exact hrec item htail
            · rw [if_neg hhex, hdropstep] at hitem
              exact hrec item hitem

theorem containersOk_getD (cs : List Bytes) (n : Nat)
    (h : containersOk cs = true) : byteListOk (cs.getD n []) = true := by
  by_cases hn : n < cs.length
  · have hmem : cs.getD n [] ∈ cs := by
      rw [List.getD_eq_getElem?_getD, List.getElem?_eq_getElem hn]
      exact List.getElem_mem hn
    simp only [containersOk, List.all_eq_true] at h
    exact h _ hmem
  · rw [getD_nil_of_ge _ _ (by omega)]
    rfl

theorem mem_foldl_indexSet (items : List ScanItem) (acc : Index)
    (kv : Bytes × BlobPos)
    (h : kv ∈ items.foldl (fun a it => indexSet a it.hash it.pos) acc) :
    kv ∈ acc ∨ ∃ it ∈ items, kv = (it.hash, it.pos) := by
  induction items generalizing acc with
  | nil => exact Or.inl h
  | cons it rest ih =>
    simp only [List.foldl_cons] at h
    rcases ih _ h with hacc | ⟨it2, hit2, hkv⟩
    · rcases mem_indexSet _ _ _ _ hacc with hnew | hold
      · exact Or.inr ⟨it, List.mem_cons_self _ _, hnew⟩
      · exact Or.inl hold
    · exact Or.inr ⟨it2, List.mem_cons_of_mem _ hit2, hkv⟩

theorem scanFiles_items_ok (H : Bytes → Bytes) (sD : Bytes → Option Bytes)
    (c : Bool) (cs : List Bytes)
    (hbyteH : ∀ x, byteListOk (H x) = true)
    (hcsOk : containersOk cs = true) :
    ∀ fs n, fs = cs.drop n →
      ∀ item ∈ (scanFiles H sD c fs n).items,
        frameOkB H sD c cs item.hash item.pos = true := by
  intro fs
  induction fs with
  | nil =>
    intro n _ item hitem
    simp [scanFiles] at hitem
  | cons f fs ih =>
    intro n hfs item hitem
    have hf : cs.getD n [] = f := by
      have hn : cs[n]? = some f := by
        have h0 : (cs.drop n)[0]? = some f := by rw [← hfs]; simp
        rw [List.getElem?_drop] at h0
        simpa using h0
      rw [List.getD_eq_getElem?_getD, hn]
      rfl
    have hfs2 : fs = cs.drop (n + 1) := by
      have ht : (cs.drop n).tail = cs.drop (n + 1) := by
        rw [List.tail_drop]
      rw [← ht, ← hfs]
      rfl
    have hone : ∀ it : ScanItem,
        it ∈ (scanFile H sD c n magic.length (f.drop magic.length)).items →
        frameOkB H sD c cs it.hash it.pos = true := by
      intro it hit
      rw [← hf] at hit
      exact scanFile_items_ok H sD c cs n hbyteH (containersOk_getD cs n hcsOk)
        (cs.getD n []).length magic.length it (by omega) hit
    simp only [scanFiles] at hitem
    by_cases hmag : f.take magic.length ≠ magic
    · rw [if_pos hmag] at hitem
      simp at hitem
    · rw [if_neg hmag] at hitem
      rcases he : (scanFile H sD c n magic.length (f.drop magic.length)).err
        with _ | e
      · simp only [he] at hitem
        rcases List.mem_append.1 hitem with hl | hr
        · exact hone item hl
        · exact ih (n + 1) hfs2 item hr
      · simp only [he] at hitem
        exact hone item hitem

theorem reindex_components (H : Bytes → Bytes) (sD : Bytes → Option Bytes)
    (s : Store) :
    (reindex H sD s).1.index = (scanFiles H sD s.compression s.containers 0).items.foldl
      (fun acc it => indexSet acc it.hash it.pos) [] ∧
    (reindex H sD s).1.containers = s.containers ∧
    (reindex H sD s).1.compression = s.compression := by
  simp only [reindex]
  split
  · exact ⟨rfl, rfl, rfl⟩
  · split
    · exact ⟨rfl, rfl, rfl⟩
    · split
      · exact ⟨rfl, rfl, rfl⟩
      · exact ⟨rfl, rfl, rfl⟩

theorem storeInv_reindex (H : Bytes → Bytes) (sD : Bytes → Option Bytes)
    (s : Store)
    (hbyteH : ∀ x, byteListOk (H x) = true)
    (hcsOk : containersOk s.containers = true) :
    storeInvB H sD (reindex H sD s).1 = true := by
  obtain ⟨hidx, hcont, hcomp⟩ := reindex_components H sD s
  simp only [storeInvB, List.all_eq_true, hidx, hcont, hcomp]
  intro kv hkv
  rcases mem_foldl_indexSet _ _ _ hkv with hacc | ⟨it, hit, hkveq⟩
  · simp at hacc
  · rw [hkveq]
    exact scanFiles_items_ok H sD s.compression s.containers hbyteH hcsOk
      s.containers 0 (by simp) it hit

theorem lexLt_irrefl : ∀ a : Bytes, lexLt a a = false := by
  intro a
  induction a with
  | nil => rfl
  | cons x xs ih => simp [lexLt, ih]

theorem lexLt_trans : ∀ a b c : Bytes, lexLt a b = true → lexLt b c = true →
    lexLt a c = true := by
  intro a
  induction a with
  | nil =>
    intro b c h1 h2
    cases b with
    | nil => simp [lexLt] at h1
    | cons y ys =>
      cases c with
      | nil => simp [lexLt] at h2
      | cons z zs => rfl
  | cons x xs ih =>
    intro b c h1 h2
    cases b with
    | nil => simp [lexLt] at h1
    | cons y ys =>
      cases c with
      | nil => simp [lexLt] at h2
      | cons z zs =>
        simp only [lexLt] at h1 h2 ⊢
        by_cases hxy : x < y
        · rw [if_pos hxy] at h1
          by_cases hyz : y < z
          · rw [if_pos (by omega)]
          · rw [if_neg hyz] at h2
            by_cases hzy : z < y
            · rw [if_pos hzy] at h2
              simp at h2
            · rw [if_pos (by omega)]
        · rw [if_neg hxy] at h1
          by_cases hyx : y < x
          · rw [if_pos hyx] at h1
            simp at h1
          · rw [if_neg hyx] at h1
            by_cases hyz : y < z
            · rw [if_pos (by omega)]
            · rw [if_neg hyz] at h2
              by_cases hzy : z < y
              · rw [if_pos hzy] at h2
                simp at h2
              · rw [if_neg hzy] at h2
                rw [if_neg (by omega), if_neg (by omega)]
                exact ih ys zs h1 h2

theorem lexLt_asymm (a b : Bytes) (h1 : lexLt a b = true) (h2 : lexLt b a = true) :
    False := by
  have h3 := lexLt_trans a b a h1 h2
  rw [lexLt_irrefl] at h3
  exact Bool.false_ne_true h3

theorem lexLt_head_ge_one (e0 : Nat) (es k : Bytes) (h : 1 ≤ e0) :
    lexLt (e0 :: es) (0 :: k) = false := by
  simp only [lexLt]
  rw [if_neg (by omega), if_pos (by omega)]

theorem enumLoop_spec (e0 : Nat) (es : Bytes) (he : 1 ≤ e0) (limit : Nat) :
    ∀ (lst : Index) (i : Nat), enumLoop (e0 :: es) limit lst i =
      (if limit = 0 then lst else lst.take (limit + 1 - i)).map
        (fun kv => (hexEncode kv.1, kv.2.size)) := by
  intro lst
  induction lst with
  | nil =>
    intro i
    simp [enumLoop]
  | cons kv rest ih =>
    intro i
    have hend : lexLt (e0 :: es) (formatKey BlobPosKey kv.1) = false := by
      simp only [formatKey, BlobPosKey]
      exact lexLt_head_ge_one e0 es kv.1 he
    by_cases hlim : limit = 0
    · subst hlim
      rw [enumLoop, if_neg (by simp [hend])]
      rw [ih (i + 1)]
      simp
    · by_cases hstop : limit < i
      · rw [enumLoop, if_pos (Or.inr ⟨hlim, hstop⟩)]
        rw [if_neg hlim, show limit + 1 - i = 0 by omega]
        simp
      · rw [enumLoop, if_neg (by simp [hend, hlim, hstop])]
        rw [ih (i + 1), if_neg hlim, if_neg hlim,
          show limit + 1 - i = (limit - i) + 1 by omega, List.take_succ_cons,
          List.map_cons, show limit + 1 - (i + 1) = limit - i by omega]

theorem idxSortedB_tail (a : Bytes × BlobPos) (rest : Index)
    (h : idxSortedB (a :: rest) = true) : idxSortedB rest = true := by
  cases rest with
  | nil => rfl
  | cons b rest2 =>
    simp only [idxSortedB, Bool.and_eq_true] at h
    exact h.2

theorem idxSortedB_head_lt (a : Bytes × BlobPos) (rest : Index)
    (h : idxSortedB (a :: rest) = true) :
    ∀ kv ∈ rest, lexLt a.1 kv.1 = true := by
  induction rest generalizing a with
  | nil => intro kv hkv; simp at hkv
  | cons b rest2 ih =>
    intro kv hkv
    simp only [idxSortedB, Bool.and_eq_true] at h
    rcases List.mem_cons.1 hkv with he | hm
    · subst he
      exact h.1
    · exact lexLt_trans a.1 b.1 kv.1 h.1 (ih b h.2 kv hm)

theorem seekIdx_mem (idx : Index) (key : Bytes) (kv : Bytes × BlobPos)
    (h : kv ∈ seekIdx idx key) : kv ∈ idx :=
  (List.dropWhile_suffix _).mem h

theorem seekIdx_ge (idx : Index) (key : Bytes) (hs : idxSortedB idx = true)
    (kv : Bytes × BlobPos) (h : kv ∈ seekIdx idx key) :
    lexLt (formatKey BlobPosKey kv.1) key = false := by
  induction idx with
  | nil => simp [seekIdx] at h
  | cons a rest ih =>
    rw [seekIdx, List.dropWhile_cons] at h
    split at h
    · exact ih (idxSortedB_tail a rest hs) h
    · rename_i hpred
      rcases List.mem_cons.1 h with he | hm
      · subst he
        simpa using hpred
      · have hlt := idxSortedB_head_lt a rest hs kv hm
        by_contra hkey
        rw [Bool.not_eq_false] at hkey
        have hak : lexLt (formatKey BlobPosKey a.1) (formatKey BlobPosKey kv.1)
            = true := by
          simp only [formatKey, lexLt]
          rw [if_neg (by omega), if_neg (by omega)]
          exact hlt
        exact hpred (by simpa using lexLt_trans _ _ _ hak hkey)

theorem mkFrame_parse (bh : Bytes) (f : Nat) (payload rest : Bytes)
    (hbh : bh.length = hashSize) (hsz : payload.length < 4294967296) :
    ¬ (mkFrame bh f payload ++ rest).length < Overhead ∧
    (mkFrame bh f payload ++ rest).take hashSize = bh ∧
    (mkFrame bh f payload ++ rest).getD hashSize 0 = f ∧
    u32dec (((mkFrame bh f payload ++ rest).drop (hashSize + 1)).take 4)
      = payload.length ∧
    ((mkFrame bh f payload ++ rest).drop Overhead).take payload.length = payload ∧
    (mkFrame bh f payload ++ rest).drop (Overhead + payload.length) = rest := by
  have hshape : mkFrame bh f payload ++ rest
      = bh ++ [f] ++ u32le payload.length ++ payload ++ rest := by
    simp [mkFrame]
  have hlen : (mkFrame bh f payload ++ rest).length
      = Overhead + payload.length + rest.length := by
    simp [mkFrame, u32le, Overhead, hashSize, hbh]
    omega
  refine ⟨by omega, ?_, ?_, ?_, ?_, ?_⟩
  · rw [hshape, show bh ++ [f] ++ u32le payload.length ++ payload ++ rest
        = bh ++ ([f] ++ u32le payload.length ++ payload ++ rest) by simp,
      ← hbh, List.take_left]
  · rw [List.getD_eq_getElem?_getD, hshape,
      show bh ++ [f] ++ u32le payload.length ++ payload ++ rest
        = bh ++ ([f] ++ (u32le payload.length ++ payload ++ rest)) by simp,
      List.getElem?_append_right (by omega)]
    simp [hbh, hashSize]
  · rw [hshape, show bh ++ [f] ++ u32le payload.length ++ payload ++ rest
        = (bh ++ [f]) ++ (u32le payload.length ++ (payload ++ rest)) by simp,
      show hashSize + 1 = (bh ++ [f]).length by simp [hbh], List.drop_left,
      show (4 : Nat) = (u32le payload.length).length by simp [u32le],
      List.take_left, u32dec_u32le _ hsz]
  · rw [hshape, show bh ++ [f] ++ u32le payload.length ++ payload ++ rest
        = (bh ++ [f] ++ u32le payload.length) ++ (payload ++ rest) by simp,
      show Overhead = (bh ++ [f] ++ u32le payload.length).length by
        simp [hbh, u32le, Overhead, hashSize],
      List.drop_left, List.take_left]
  · rw [hshape, show bh ++ [f] ++ u32le payload.length ++ payload ++ rest
        = (bh ++ [f] ++ u32le payload.length ++ payload) ++ rest by simp,
      show Overhead + payload.length
          = (bh ++ [f] ++ u32le payload.length ++ payload).length by
        simp [hbh, u32le, Overhead, hashSize]
        omega,
      List.drop_left]

theorem scanFile_frame_deleted (H : Bytes → Bytes) (sD : Bytes → Option Bytes)
    (c : Bool) (n off : Nat) (bh payload rest : Bytes)
    (hbh : bh.length = hashSize) (hsz : payload.length < 4294967296) :
    scanFile H sD c n off (mkFrame bh DeletedFlag payload ++ rest)
      = scanFile H sD c n (off + Overhead + payload.length)
          ((mkFrame bh DeletedFlag payload ++ rest).drop (Overhead + payload.length)) := by
  obtain ⟨h37, htake, hflag, hsize, hraw, hdrop⟩ :=
    mkFrame_parse bh DeletedFlag payload rest hbh hsz
  rw [scanFile]
  rw [dif_neg h37]
  rw [hsize]
  rw [if_neg (by simp [hraw])]
  rw [hflag, if_pos rfl]

theorem scanFile_frame_live (H : Bytes → Bytes) (sD : Bytes → Option Bytes)
    (c : Bool) (n off : Nat) (bh : Bytes) (f : Nat) (payload rest blob : Bytes)
    (hbh : bh.length = hashSize) (hsz : payload.length < 4294967296)
    (hf : f ≠ DeletedFlag)
    (hdecomp : (if c then sD payload else some payload) = some blob) :
    scanFile H sD c n off (mkFrame bh f payload ++ rest)
      = (if hexEncode bh = hexEncode (H blob) then
          ⟨⟨⟨n, off, payload.length⟩, f, bh, blob⟩ ::
            (scanFile H sD c n (off + Overhead + payload.length)
              ((mkFrame bh f payload ++ rest).drop (Overhead + payload.length))).items,
           (scanFile H sD c n (off + Overhead + payload.length)
              ((mkFrame bh f payload ++ rest).drop (Overhead + payload.length))).corrupted,
           (scanFile H sD c n (off + Overhead + payload.length)
              ((mkFrame bh f payload ++ rest).drop (Overhead + payload.length))).err⟩
        else
          ⟨(scanFile H sD c n (off + Overhead + payload.length)
              ((mkFrame bh f payload ++ rest).drop (Overhead + payload.length))).items,
           ⟨n, off, payload.length⟩ ::
            (scanFile H sD c n (off + Overhead + payload.length)
              ((mkFrame bh f payload ++ rest).drop (Overhead + payload.length))).corrupted,
           (scanFile H sD c n (off + Overhead + payload.length)
              ((mkFrame bh f payload ++ rest).drop (Overhead + payload.length))).err⟩) := by
  obtain ⟨h37, htake, hflag, hsize, hraw, hdrop⟩ :=
    mkFrame_parse bh f payload rest hbh hsz
  rw [scanFile]
  rw [dif_neg h37]
  rw [hsize]
  rw [if_neg (by simp [hraw])]
  rw [hflag, if_neg hf]
  rw [hraw, htake]
  simp only [hdecomp]

theorem deleteFlagStep_other_container (s : Store) (pos : BlobPos) (m : Nat)
    (h : m ≠ pos.n) :
    (deleteFlagStep s pos).containers.getD m [] = s.containers.getD m [] :=
  getD_updAt_ne s.containers pos.n m _ h

theorem set_self_getElem? (l : Bytes) (i v : Nat) (h : i < l.length) :
    (l.set i v)[i]? = some v := by
  rw [List.getElem?_eq_getElem (by simpa using h)]
  simp [List.getElem_set]

theorem deleteFlagStep_flag_byte (s : Store) (pos : BlobPos)
    (hn : pos.n < s.containers.length)
    (hoff : pos.offset + hashSize < (s.containers.getD pos.n []).length) :
    ((deleteFlagStep s pos).containers.getD pos.n [])[pos.offset + hashSize]?
      = some DeletedFlag := by
  simp only [deleteFlagStep]
  rw [getD_updAt_self _ _ _ hn]
  exact set_self_getElem? _ _ _ hoff

theorem deleteFlagStep_other_byte (s : Store) (pos : BlobPos) (j : Nat)
    (hj : j ≠ pos.offset + hashSize) :
    ((deleteFlagStep s pos).containers.getD pos.n [])[j]?
      = (s.containers.getD pos.n [])[j]? := by
  simp only [deleteFlagStep]
  by_cases hn : pos.n < s.containers.length
  · rw [getD_updAt_self _ _ _ hn, List.getElem?_set_ne (by omega)]
  · rw [updAt_ge _ _ _ (by omega)]

end BlobsFile

namespace SyncTable

open BlobsFile (Bytes lexLt lexLt_asymm)

theorem rootStream_foldl : ∀ (l : List Bytes) (st : StateTree),
    (l.foldl treeAdd st).rootStream = st.rootStream ++ l.flatten := by
  intro l
  induction l with
  | nil => intro st; simp
  | cons h t ih =>
    intro st
    rw [List.foldl_cons, ih (treeAdd st h)]
    simp [treeAdd]

theorem find?_bucketAdd (lv : List (Bytes × Bytes)) (k h p : Bytes) :
    (((bucketAdd lv k h).find? (fun kv => kv.1 == p)).map (·.2)).getD []
      = if p = k
        then ((lv.find? (fun kv => kv.1 == p)).map (·.2)).getD [] ++ h
        else ((lv.find? (fun kv => kv.1 == p)).map (·.2)).getD [] := by
  induction lv with
  | nil =>
    by_cases hpk : p = k
    · subst hpk
      simp [bucketAdd, List.find?]
    · have hkp : (k == p) = false := by
        simp only [beq_eq_false_iff_ne, ne_eq]
        exact fun hc => hpk hc.symm
      simp [bucketAdd, List.find?, hkp, hpk]
  | cons a rest ih =>
    simp only [bucketAdd]
    by_cases hak : a.1 = k
    · rw [if_pos hak]
      by_cases hpk : p = k
      · subst hpk
        have h1 : (p == p) = true := by simp
        have h2 : (a.1 == p) = true := by simp [hak]
        simp [List.find?, h1, h2]
      · have h1 : (k == p) = false := by
          simp only [beq_eq_false_iff_ne, ne_eq]
          exact fun hc => hpk hc.symm
        have h2 : (a.1 == p) = false := by
          simp only [beq_eq_false_iff_ne, ne_eq, hak]
          exact fun hc => hpk hc.symm
        simp [List.find?, h1, h2, hpk]
    · rw [if_neg hak]
      by_cases hap : a.1 = p
      · have hpk : ¬ p = k := by
          intro hc
          exact hak (by rw [hap, hc])
        have h2 : (a.1 == p) = true := by simp [hap]
        simp [List.find?, h2, hpk]
      · have h2 : (a.1 == p) = false := by simp [hap]
        simp only [List.find?, h2]
        exact ih

theorem bucketStream_treeAdd (st : StateTree) (h p : Bytes) :
    bucketStream (treeAdd st h) p
      = if p = h.take 2 then bucketStream st p ++ h else bucketStream st p := by
  simp only [treeAdd, bucketStream]
  exact find?_bucketAdd st.level1 (h.take 2) h p

theorem bucketStream_foldl : ∀ (l : List Bytes) (st : StateTree) (p : Bytes),
    bucketStream (l.foldl treeAdd st) p
      = bucketStream st p ++ (l.filter (fun h => h.take 2 == p)).flatten := by
  intro l
  induction l with
  | nil => intro st p; simp
  | cons h t ih =>
    intro st p
    rw [List.foldl_cons, ih (treeAdd st h), bucketStream_treeAdd]
    by_cases hp : p = h.take 2
    · rw [if_pos hp, List.filter_cons, if_pos (by simp [hp])]
      simp
    · rw [if_neg hp, List.filter_cons,
        if_neg (by simp; exact fun hc => hp hc.symm)]

theorem treeAddAll_sorted_eq (l1 l2 : List Bytes) (hperm : l1.Perm l2)
    (hs1 : List.Sorted (fun a b : Bytes => lexLt a b = true) l1)
    (hs2 : List.Sorted (fun a b : Bytes => lexLt a b = true) l2) :
    treeAddAll l1 = treeAddAll l2 := by
  have heq : l1 = l2 :=
    @List.eq_of_perm_of_sorted _ _
      ⟨fun a b h1 h2 => (lexLt_asymm a b h1 h2).elim⟩ l1 l2 hperm hs1 hs2
  rw [heq]

theorem syncDiff_missing_mem (B A : PeerState) (p : Bytes) :
    p ∈ (syncDiff B A).2.2 ↔ ∃ v, (p, v) ∈ B.leafs ∧ lookupLeaf A.leafs p = none := by
  simp only [syncDiff, List.mem_map, List.mem_filter]
  constructor
  · rintro ⟨kv, ⟨hmem, hcond⟩, rfl⟩
    exact ⟨kv.2, hmem, by simpa [Option.isNone_iff_eq_none] using hcond⟩
  · rintro ⟨v, hmem, hnone⟩
    exact ⟨(p, v), ⟨hmem, by simp [hnone]⟩, rfl⟩

theorem syncDiff_needed_mem (B A : PeerState) (p : Bytes) :
    p ∈ (syncDiff B A).2.1 ↔ ∃ v, (p, v) ∈ A.leafs ∧ lookupLeaf B.leafs p = none := by
  simp only [syncDiff, List.mem_map, List.mem_filter]
  constructor
  · rintro ⟨kv, ⟨hmem, hcond⟩, rfl⟩
    exact ⟨kv.2, hmem, by simpa [Option.isNone_iff_eq_none] using hcond⟩
  · rintro ⟨v, hmem, hnone⟩
    exact ⟨(p, v), ⟨hmem, by simp [hnone]⟩, rfl⟩

theorem syncDiff_conflicted_mem (B A : PeerState) (p : Bytes) :
    p ∈ (syncDiff B A).1 ↔
      ∃ v rv, (p, v) ∈ B.leafs ∧ lookupLeaf A.leafs p = some rv ∧ rv ≠ v := by
  simp only [syncDiff, List.mem_map, List.mem_filter]
  constructor
  · rintro ⟨kv, ⟨hmem, hcond⟩, rfl⟩
    rcases hl : lookupLeaf A.leafs kv.1 with _ | rv
    · rw [hl] at hcond
      simp at hcond
    · rw [hl] at hcond
      exact ⟨kv.2, rv, hmem, rfl, by simpa using hcond⟩
  · rintro ⟨v, rv, hmem, hsome, hne⟩
    refine ⟨(p, v), ⟨hmem, ?_⟩, rfl⟩
    rw [hsome]
    simpa using hne

theorem syncHandler_noContent_iff (B A : PeerState) :
    syncHandler B A = .noContent ↔ B.root = A.root := by
  rw [syncHandler]
  by_cases h : B.root = A.root
  · simp [h]
  · simp [h]

theorem syncHandler_ok (B A : PeerState) (h : B.root ≠ A.root) :
    syncHandler B A
      = .ok (syncDiff B A).1 (syncDiff B A).2.1 (syncDiff B A).2.2 := by
  rw [syncHandler, if_neg h]

theorem decodeSyncResp_respObj (c n m : List Bytes) :
    decodeSyncResp (respObj c n m) = ⟨c, [], m⟩ := by
  rfl

end SyncTable

namespace BlobsFile

theorem put_true_snd (H : Bytes → Bytes) (sE : Bytes → Bytes) (s : Store)
    (hash b : Bytes) : (Put H sE true s hash b).2 = none := rfl

theorem decodeBlob_error_kinds (H : Bytes → Bytes) (sD : Bytes → Option Bytes)
    (c : Bool) (data : Bytes) (e : GetErr)
    (h : decodeBlob H sD c data = .error e) :
    e = .snappyPanicked ∨ e = .hashMismatchPanicked := by
  simp only [decodeBlob] at h
  split at h
  · cases h
    exact Or.inl rfl
  · split at h
    · exact absurd h (by simp)
    · cases h
      exact Or.inr rfl

end BlobsFile

namespace Fixtures

theorem hW_len (b : BlobsFile.Bytes) : (hW b).length = BlobsFile.hashSize := by
  simp only [hW, List.length_take, List.length_append, List.length_map,
    List.length_replicate, BlobsFile.hashSize]
  omega

theorem hW_byteOk (b : BlobsFile.Bytes) : BlobsFile.byteListOk (hW b) = true := by
  simp only [BlobsFile.byteListOk, List.all_eq_true, decide_eq_true_eq]
  intro x hx
  have hx2 := (List.take_prefix _ _).subset hx
  rcases List.mem_append.1 hx2 with hm | hm
  · obtain ⟨y, _, rfl⟩ := List.mem_map.1 hm
    omega
  · rw [List.eq_of_mem_replicate hm]
    omega

end Fixtures

namespace Claims

open BlobsFile SyncTable Fixtures

/-- C1: for every blob `b`, after a successful `put(H(b), b)` the call
`get(H(b))` succeeds and returns exactly the original bytes `b` (the
plaintext, after Snappy decompression when compression is enabled), the hash
of the returned bytes equals `H(b)`, and a hash without an index entry gets
`NotFound`.  The hypotheses are the contracts the source relies on: a
well-formed store, a 32-byte digest, the caller passing `hash = H(b)`
(`the store trusts the hash`), a Snappy roundtrip, and a payload that fits
the 32-bit size field. -/
theorem c1_put_get_roundtrip (H : Bytes → Bytes) (sE : Bytes → Bytes)
    (sD : Bytes → Option Bytes) (s t : Store) (b hash h2 : Bytes)
    (hwf : wfB s = true) (hh : hash = H b) (hlen : (H b).length = hashSize)
    (hdec : s.compression = true → sD (sE b) = some b)
    (hsz : (encodeBlob H sE s.compression b).1 < 4294967296) :
    (Put H sE true s hash b).2 = none ∧
    Get H sD (Put H sE true s hash b).1 hash = .ok b ∧
    H b = hash ∧
    (indexGet t.index h2 = none → Get H sD t h2 = .error .notFound) := by
  refine ⟨put_true_snd H sE s hash b,
    get_put H sE sD s hash b hwf hh hlen hdec hsz, hh.symm, ?_⟩
  intro hnone
  simp only [Get, hnone]

/-- Witness for C1 at a concrete store and blob. -/
theorem c1_put_get_roundtrip_witness :
    (Put hW sE0 true s0 (hW b0) b0).2 = none ∧
    Get hW sD0 (Put hW sE0 true s0 (hW b0) b0).1 (hW b0) = .ok b0 ∧
    hW b0 = hW b0 ∧
    (indexGet s0.index [1] = none → Get hW sD0 s0 [1] = .error .notFound) :=
  c1_put_get_roundtrip hW sE0 sD0 s0 s0 b0 (hW b0) [1]
    (by decide) rfl (by decide) (by decide) (by decide)

/-- C2 counterexample: `BlobsFileBackend.Put` performs no already-present
check, so the second `put` of the same hash succeeds but appends a second
frame and repoints the index; the store state after two puts differs from
the state after one. -/
theorem c2_counterexample :
    (Put hW sE0 true s0 (hW b0) b0).2 = none ∧
    (Put hW sE0 true s1 (hW b0) b0).2 = none ∧
    (Put hW sE0 true s1 (hW b0) b0).1 ≠ s1 := by
  refine ⟨by decide, by decide, by decide⟩

/-- C2 amended: putting the same blob twice leaves both calls succeeding and
the hash still retrievable with the original bytes (logical idempotence),
but the raw store state is not preserved (see the counterexample): the
second put appends a duplicate frame. -/
theorem c2_put_idempotent_logical (H : Bytes → Bytes) (sE : Bytes → Bytes)
    (sD : Bytes → Option Bytes) (s : Store) (b hash : Bytes)
    (hwf : wfB s = true) (hh : hash = H b) (hlen : (H b).length = hashSize)
    (hdec : s.compression = true → sD (sE b) = some b)
    (hsz : (encodeBlob H sE s.compression b).1 < 4294967296) :
    (Put H sE true s hash b).2 = none ∧
    (Put H sE true (Put H sE true s hash b).1 hash b).2 = none ∧
    Get H sD (Put H sE true (Put H sE true s hash b).1 hash b).1 hash
      = .ok b :=
  ⟨put_true_snd H sE s hash b, put_true_snd H sE _ hash b,
    put_put_get H sE sD s hash b hwf hh hlen hdec hsz⟩

/-- Witness for the amended C2. -/
theorem c2_put_idempotent_logical_witness :
    (Put hW sE0 true s0 (hW b0) b0).2 = none ∧
    (Put hW sE0 true (Put hW sE0 true s0 (hW b0) b0).1 (hW b0) b0).2 = none ∧
    Get hW sD0 (Put hW sE0 true (Put hW sE0 true s0 (hW b0) b0).1 (hW b0) b0).1
      (hW b0) = .ok b0 :=
  c2_put_idempotent_logical hW sE0 sD0 s0 b0 (hW b0)
    (by decide) rfl (by decide) (by decide) (by decide)

/-- C3 counterexample: on a store whose frame payload was flipped on disk,
`Get` does not return the `NotFound` error the claim (and spec §7) promise:
`decodeBlob` panics on the digest mismatch, modelled as the
`hashMismatchPanicked` outcome. -/
theorem c3_counterexample :
    Get hW sD0 sC (hW b0) ≠ .error .notFound ∧
    Get hW sD0 sC (hW b0) = .error .hashMismatchPanicked := by
  refine ⟨by decide, by decide⟩

/-- C3 amended: `get` never returns corrupted bytes as valid content — any
returned blob verifies against the stored 32-byte hash field — but on a
mismatching frame the code panics inside `decodeBlob` instead of returning a
`NotFound`/`Corrupted` error value: the outcome is the decode panic, which
is never the `notFound` error. -/
theorem c3_get_corruption_behavior (H : Bytes → Bytes)
    (sD : Bytes → Option Bytes) (s : Store) (h blob data : Bytes)
    (pos : BlobPos) (e : GetErr) :
    (Get H sD s h = .ok blob →
      ∃ pos2 data2, indexGet s.index h = some pos2 ∧
        readAt s.containers pos2.n pos2.offset (pos2.size + Overhead)
          = some data2 ∧
        H blob = data2.take hashSize) ∧
    (indexGet s.index h = some pos →
      readAt s.containers pos.n pos.offset (pos.size + Overhead) = some data →
      decodeBlob H sD s.compression data = .error e →
      Get H sD s h = .error e ∧ e ≠ .notFound) := by
  refine ⟨get_ok_sound H sD s h blob, ?_⟩
  intro h1 h2 h3
  refine ⟨get_decode_error H sD s h pos data e h1 h2 h3, ?_⟩
  rcases decodeBlob_error_kinds H sD s.compression data e h3 with he | he <;>
    simp [he]

/-- Witness for the amended C3 at the concrete corrupted store. -/
theorem c3_get_corruption_behavior_witness :
    Get hW sD0 sC (hW b0) = .error .hashMismatchPanicked ∧
    GetErr.hashMismatchPanicked ≠ GetErr.notFound :=
  (c3_get_corruption_behavior hW sD0 sC (hW b0) b0 dataC posC
    .hashMismatchPanicked).2 (by decide) (by decide) (by decide)

end Claims

namespace Claims

open BlobsFile SyncTable Fixtures

/-- C4 counterexample: the state tree feeds hashes into the running root
hash in insertion order, so the root digest input is not the lexicographic
concatenation: feeding `bbb…b` before `aaa…a` produces the stream
`b…ba…a`, not the sorted `a…ab…b`, and an injective digest (here the
identity stand-in, exposing the stream itself) distinguishes them. -/
theorem c4_counterexample :
    ¬ treeRoot (fun x => x) (treeAddAll [bHash, aHash])
      = (fun x => x) (sortHashes [bHash, aHash]).flatten := by
  decide

/-- C4 amended: the root digest input is the concatenation of the hashes in
insertion order, a bucket's digest input is the concatenation of the hashes
routed to it in insertion order, and two replicas produce identical trees
when they feed the same hash set in the same lexicographically sorted order
(the spec's mandated fix) — not for arbitrary insertion orders. -/
theorem c4_tree_streams (H : Bytes → Bytes) (l l2 : List Bytes) (p : Bytes)
    (hperm : l.Perm l2)
    (hs1 : List.Sorted (fun a b : Bytes => lexLt a b = true) l)
    (hs2 : List.Sorted (fun a b : Bytes => lexLt a b = true) l2) :
    treeRoot H (treeAddAll l) = H l.flatten ∧
    bucketStream (treeAddAll l) p
      = (l.filter (fun h => h.take 2 == p)).flatten ∧
    treeAddAll l = treeAddAll l2 := by
  refine ⟨?_, ?_, treeAddAll_sorted_eq l l2 hperm hs1 hs2⟩
  · rw [treeRoot, treeAddAll, rootStream_foldl]
    rfl
  · rw [treeAddAll, bucketStream_foldl]
    rfl

/-- Witness for the amended C4 on two concrete sorted hash lists. -/
theorem c4_tree_streams_witness :
    treeRoot (fun x => x) (treeAddAll [aHash, bHash])
      = (fun x => x) ([aHash, bHash] : List Bytes).flatten ∧
    bucketStream (treeAddAll [aHash, bHash]) [97, 97]
      = (([aHash, bHash] : List Bytes).filter
          (fun h => h.take 2 == [97, 97])).flatten ∧
    treeAddAll [aHash, bHash] = treeAddAll [aHash, bHash] :=
  c4_tree_streams (fun x => x) [aHash, bHash] [aHash, bHash] [97, 97]
    (List.Perm.refl _) (by decide) (by decide)

/-- C5 counterexample: with the POSTing replica A owning only bucket `aa`
and the receiving replica B owning only bucket `bb`, the handler reports
`missing = [bb]` and `needed = [aa]`; but bucket `bb` does not occur in
`State_A.leafs` at all (and `aa` not in `State_B.leafs`), so the claim's
reading — `missing` = buckets of A absent from B, `needed` = buckets of B
absent from A — is false: the two lists are swapped. -/
theorem c5_counterexample :
    syncHandler stB stA
      = .ok [] [strBytes "aa"] [strBytes "bb"] ∧
    lookupLeaf stA.leafs (strBytes "bb") = none ∧
    lookupLeaf stB.leafs (strBytes "aa") = none := by
  refine ⟨by decide, by decide, by decide⟩

/-- C5 amended: equal roots reply `204 No Content`; otherwise the handler
replies `200` with `missing` = buckets present in the receiver B's leafs and
absent from the poster A's leafs, `needed` = buckets present in A's leafs
and absent from B's, and `conflicted` = buckets present in both with
differing bucket hashes — the converse of the claim's `missing`/`needed`
assignment. -/
theorem c5_sync_diff (A B : PeerState) (p : Bytes) :
    (syncHandler B A = .noContent ↔ B.root = A.root) ∧
    (B.root ≠ A.root → syncHandler B A
      = .ok (syncDiff B A).1 (syncDiff B A).2.1 (syncDiff B A).2.2) ∧
    (p ∈ (syncDiff B A).2.2 ↔
      ∃ v, (p, v) ∈ B.leafs ∧ lookupLeaf A.leafs p = none) ∧
    (p ∈ (syncDiff B A).2.1 ↔
      ∃ v, (p, v) ∈ A.leafs ∧ lookupLeaf B.leafs p = none) ∧
    (p ∈ (syncDiff B A).1 ↔
      ∃ v rv, (p, v) ∈ B.leafs ∧ lookupLeaf A.leafs p = some rv ∧ rv ≠ v) :=
  ⟨syncHandler_noContent_iff B A, syncHandler_ok B A,
    syncDiff_missing_mem B A p, syncDiff_needed_mem B A p,
    syncDiff_conflicted_mem B A p⟩

/-- Witness for the amended C5 at the two concrete peer states. -/
theorem c5_sync_diff_witness :
    (syncHandler stB stA = .noContent ↔ stB.root = stA.root) ∧
    (stB.root ≠ stA.root → syncHandler stB stA
      = .ok (syncDiff stB stA).1 (syncDiff stB stA).2.1 (syncDiff stB stA).2.2) ∧
    (strBytes "bb" ∈ (syncDiff stB stA).2.2 ↔
      ∃ v, (strBytes "bb", v) ∈ stB.leafs ∧
        lookupLeaf stA.leafs (strBytes "bb") = none) ∧
    (strBytes "bb" ∈ (syncDiff stB stA).2.1 ↔
      ∃ v, (strBytes "bb", v) ∈ stA.leafs ∧
        lookupLeaf stB.leafs (strBytes "bb") = none) ∧
    (strBytes "bb" ∈ (syncDiff stB stA).1 ↔
      ∃ v rv, (strBytes "bb", v) ∈ stB.leafs ∧
        lookupLeaf stA.leafs (strBytes "bb") = some rv ∧ rv ≠ v) :=
  c5_sync_diff stA stB (strBytes "bb")

/-- C6 counterexample: the rollover test compares `size + payload_size`
(not `size + len(frame)`) against the limit.  With `maxSize = 50`, a store
at size 6 and a 44-byte payload, `6 + 44 ≤ 50` so no new container is
created, yet the written frame is 81 bytes and the container grows to 87
bytes — past `max_container_size` — refuting both the claimed trigger
condition and the claimed bound. -/
theorem c6_counterexample :
    s50.maxSize = 50 ∧
    s50.maxSize < s50.size + (encodeBlob hW sE0 s50.compression b44).2.length ∧
    (Put hW sE0 true s50 (hW b44) b44).1.containers.length = 1 ∧
    s50.maxSize <
      ((Put hW sE0 true s50 (hW b44) b44).1.containers.getD 0 []).length := by
  refine ⟨by decide, by decide, by decide, by decide⟩

/-- C6 amended: the store rolls over exactly when `size + payload_size`
would exceed `maxSize` (the 37-byte frame overhead is not counted, so a
container may end up larger than `maxSize`).  When it rolls, the whole
frame lands in the fresh container `n+1` right after the magic header, the
new `n` is persisted, and the index records position `(n+1, 6, size)`;
when it does not roll, the whole frame is appended to the current
container.  In both cases the frame is contiguous in a single container. -/
theorem c6_rollover_behavior (H : Bytes → Bytes) (sE : Bytes → Bytes)
    (s : Store) (hash b : Bytes) (hwf : wfB s = true) :
    (s.size + (encodeBlob H sE s.compression b).1 > s.maxSize →
      (Put H sE true s hash b).1.n = s.n + 1 ∧
      (Put H sE true s hash b).1.containers.length = s.n + 2 ∧
      (Put H sE true s hash b).1.containers.getD (s.n + 1) []
        = magic ++ (encodeBlob H sE s.compression b).2 ∧
      (Put H sE true s hash b).1.indexN = s.n + 1 ∧
      indexGet (Put H sE true s hash b).1.index hash
        = some ⟨s.n + 1, magic.length, (encodeBlob H sE s.compression b).1⟩) ∧
    (¬ s.size + (encodeBlob H sE s.compression b).1 > s.maxSize →
      (Put H sE true s hash b).1.n = s.n ∧
      (Put H sE true s hash b).1.containers.length = s.n + 1 ∧
      (Put H sE true s hash b).1.containers.getD s.n []
        = s.containers.getD s.n [] ++ (encodeBlob H sE s.compression b).2 ∧
      indexGet (Put H sE true s hash b).1.index hash
        = some ⟨s.n, s.size, (encodeBlob H sE s.compression b).1⟩) :=
  ⟨fun hroll => put_rollover_state H sE s hash b hwf hroll,
   fun hroll => put_noroll_state H sE s hash b hwf hroll⟩

/-- Witness for the amended C6 at a store that must roll over. -/
theorem c6_rollover_behavior_witness :
    (s1.size + (encodeBlob hW sE0 s1.compression b44).1 > 50 →
      (Put hW sE0 true { s1 with maxSize := 50 } (hW b44) b44).1.n
        = { s1 with maxSize := 50 }.n + 1 ∧
      (Put hW sE0 true { s1 with maxSize := 50 } (hW b44) b44).1.containers.length
        = { s1 with maxSize := 50 }.n + 2 ∧
      (Put hW sE0 true { s1 with maxSize := 50 } (hW b44) b44).1.containers.getD
          ({ s1 with maxSize := 50 }.n + 1) []
        = magic ++ (encodeBlob hW sE0 { s1 with maxSize := 50 }.compression b44).2 ∧
      (Put hW sE0 true { s1 with maxSize := 50 } (hW b44) b44).1.indexN
        = { s1 with maxSize := 50 }.n + 1 ∧
      indexGet (Put hW sE0 true { s1 with maxSize := 50 } (hW b44) b44).1.index
          (hW b44)
        = some ⟨{ s1 with maxSize := 50 }.n + 1, magic.length,
            (encodeBlob hW sE0 { s1 with maxSize := 50 }.compression b44).1⟩) ∧
    (¬ { s1 with maxSize := 50 }.size
        + (encodeBlob hW sE0 { s1 with maxSize := 50 }.compression b44).1 > 50 →
      (Put hW sE0 true { s1 with maxSize := 50 } (hW b44) b44).1.n
        = { s1 with maxSize := 50 }.n ∧
      (Put hW sE0 true { s1 with maxSize := 50 } (hW b44) b44).1.containers.length
        = { s1 with maxSize := 50 }.n + 1 ∧
      (Put hW sE0 true { s1 with maxSize := 50 } (hW b44) b44).1.containers.getD
          { s1 with maxSize := 50 }.n []
        = { s1 with maxSize := 50 }.containers.getD { s1 with maxSize := 50 }.n []
          ++ (encodeBlob hW sE0 { s1 with maxSize := 50 }.compression b44).2 ∧
      indexGet (Put hW sE0 true { s1 with maxSize := 50 } (hW b44) b44).1.index
          (hW b44)
        = some ⟨{ s1 with maxSize := 50 }.n, { s1 with maxSize := 50 }.size,
            (encodeBlob hW sE0 { s1 with maxSize := 50 }.compression b44).1⟩) :=
  c6_rollover_behavior hW sE0 { s1 with maxSize := 50 } (hW b44) b44 (by decide)

end Claims

namespace Claims

open BlobsFile SyncTable Fixtures

/-- C7 counterexample: `Put` records the position in the index before
writing the frame (`SetPos` precedes `Write`), so a put whose container
write fails returns an error while leaving a position record that points at
bytes that were never written: the invariant does not survive this error
path.  The store `s1` satisfied the invariant before the failing put. -/
theorem c7_counterexample :
    storeInvB hW sD0 s1 = true ∧
    (Put hW sE0 false s1 (hW [1, 2, 3]) [1, 2, 3]).2 = some .writeFailed ∧
    storeInvB hW sD0 (Put hW sE0 false s1 (hW [1, 2, 3]) [1, 2, 3]).1 = false := by
  refine ⟨by decide, by decide, by decide⟩

/-- C7 amended: index-frame validity is preserved by the operations that
complete their file writes — a successful `put` called with `hash = H(data)`
preserves it, `delete` preserves it (on stores whose recorded frames do not
overlap, as reachable stores do), and `reindex` establishes it outright,
including when it reports a scan error or `CorruptedError` (only verified
frames were indexed); `get` performs no writes at all.  A `put` whose
container write fails breaks the invariant (see the counterexample),
because the index entry is set before the frame bytes are written. -/
theorem c7_invariant_preservation (H : Bytes → Bytes) (sE : Bytes → Bytes)
    (sD : Bytes → Option Bytes)
    (hlen : ∀ x, (H x).length = hashSize)
    (hbyte : ∀ x, byteListOk (H x) = true) :
    (∀ (s : Store) (hash data : Bytes),
      storeInvB H sD s = true → wfB s = true → hash = H data →
      (s.compression = true → sD (sE data) = some data) →
      (encodeBlob H sE s.compression data).1 < 4294967296 →
      storeInvB H sD (Put H sE true s hash data).1 = true) ∧
    (∀ (s : Store) (hash : Bytes),
      storeInvB H sD s = true → indexDisjointB s.index = true →
      storeInvB H sD (Delete s hash).1 = true) ∧
    (∀ s : Store, containersOk s.containers = true →
      storeInvB H sD (reindex H sD s).1 = true) :=
  ⟨fun s hash data hinv hwf hh hdec hsz =>
    storeInv_put H sE sD s hash data (hlen data) hh hdec hsz hwf hinv,
   fun s hash hinv hdisj => storeInv_delete H sD s hash hinv hdisj,
   fun s hcs => storeInv_reindex H sD s hbyte hcs⟩

/-- Witness for the amended C7 with the concrete digest and codec. -/
theorem c7_invariant_preservation_witness :
    (∀ (s : Store) (hash data : Bytes),
      storeInvB hW sD0 s = true → wfB s = true → hash = hW data →
      (s.compression = true → sD0 (sE0 data) = some data) →
      (encodeBlob hW sE0 s.compression data).1 < 4294967296 →
      storeInvB hW sD0 (Put hW sE0 true s hash data).1 = true) ∧
    (∀ (s : Store) (hash : Bytes),
      storeInvB hW sD0 s = true → indexDisjointB s.index = true →
      storeInvB hW sD0 (Delete s hash).1 = true) ∧
    (∀ s : Store, containersOk s.containers = true →
      storeInvB hW sD0 (reindex hW sD0 s).1 = true) :=
  c7_invariant_preservation hW sE0 sD0 hW_len hW_byteOk

/-- C8 counterexample: with three indexed hashes, `start = ""`,
`end = "ff"` and `limit = 1`, `Enumerate2` yields two hashes — the loop
stops only once the counter exceeds the limit, so `limit + 1` items come
out, refuting `at most limit`. -/
theorem c8_counterexample :
    Enumerate2 sEnum [] (strBytes "ff") 1
      = .ok [([97, 97], 1), ([98, 98], 1)] ∧
    ¬ ([([97, 97], 1), ([98, 98], 1)] : List (Bytes × Nat)).length ≤ 1 := by
  refine ⟨by decide, by decide⟩

/-- C8 amended: `Enumerate2` yields, in index (lexicographic) order, the
stored hashes whose key is at or after the hex-decoded `start` — but the
`end` bound is compared as raw ASCII bytes against the prefix-byte-prefixed
index key, so for any non-empty `end` whose first byte is at least 1 the
bound never truncates the iteration, and a non-zero `limit` cuts the
output at `limit + 1` entries, not `limit`. -/
theorem c8_enumerate2_behavior (s : Store) (start : Bytes) (e0 : Nat)
    (es sb : Bytes) (limit : Nat) (kv : Bytes × BlobPos)
    (hsorted : idxSortedB s.index = true)
    (hstart : hexDecode start = some sb)
    (he : 1 ≤ e0) :
    Enumerate2 s start (e0 :: es) limit
      = .ok ((if limit = 0 then seekIdx s.index (formatKey BlobPosKey sb)
          else (seekIdx s.index (formatKey BlobPosKey sb)).take (limit + 1)).map
            (fun kv => (hexEncode kv.1, kv.2.size))) ∧
    (kv ∈ seekIdx s.index (formatKey BlobPosKey sb) →
      kv ∈ s.index ∧
      lexLt (formatKey BlobPosKey kv.1) (formatKey BlobPosKey sb) = false) ∧
    (limit ≠ 0 →
      ((seekIdx s.index (formatKey BlobPosKey sb)).take (limit + 1)).length
        ≤ limit + 1) := by
  refine ⟨?_, ?_, ?_⟩
  · simp only [Enumerate2, hstart]
    rw [enumLoop_spec e0 es he limit (seekIdx s.index (formatKey BlobPosKey sb)) 0]
    simp
  · intro hkv
    exact ⟨seekIdx_mem s.index _ kv hkv, seekIdx_ge s.index _ hsorted kv hkv⟩
  · intro _
    simp [List.length_take]

/-- Witness for the amended C8 at the three-hash store. -/
theorem c8_enumerate2_behavior_witness :
    Enumerate2 sEnum [] (102 :: [102]) 1
      = .ok ((if (1 : Nat) = 0 then seekIdx sEnum.index (formatKey BlobPosKey [])
          else (seekIdx sEnum.index (formatKey BlobPosKey [])).take (1 + 1)).map
            (fun kv => (hexEncode kv.1, kv.2.size))) ∧
    (([170], (⟨0, 6, 1⟩ : BlobPos)) ∈ seekIdx sEnum.index (formatKey BlobPosKey []) →
      ([170], (⟨0, 6, 1⟩ : BlobPos)) ∈ sEnum.index ∧
      lexLt (formatKey BlobPosKey [170]) (formatKey BlobPosKey []) = false) ∧
    ((1 : Nat) ≠ 0 →
      ((seekIdx sEnum.index (formatKey BlobPosKey [])).take (1 + 1)).length
        ≤ 1 + 1) :=
  c8_enumerate2_behavior sEnum [] 102 [102] [] 1 ([170], ⟨0, 6, 1⟩)
    (by decide) (by decide) (by decide)

end Claims

namespace Claims

open BlobsFile SyncTable Fixtures

/-- C9: `Delete`'s tombstone step writes the constant `Deleted = 1` over the
flags byte at `offset + 32` and nothing else — every other byte of that
container and every other container are untouched, and the byte becomes `1`
regardless of the previous flags value (a replace, not an OR, so bits such
as `Compressed` are cleared).  The tombstone write happens before the index
removal and the hole punch inside `Delete`.  The rebuild scan classifies a
frame as deleted precisely when its flags byte equals `1`: such a frame is
skipped, while any other flags value has the frame decoded and counted as
indexed or corrupted. -/
theorem c9_delete_tombstone (s : Store) (pos : BlobPos) (hsh : Bytes)
    (H : Bytes → Bytes) (sD : Bytes → Option Bytes) (c : Bool)
    (n off : Nat) (bh payload rest blob : Bytes) (f j m : Nat)
    (hn : pos.n < s.containers.length)
    (hoff : pos.offset + hashSize < (s.containers.getD pos.n []).length)
    (hbh : bh.length = hashSize) (hsz : payload.length < 4294967296)
    (hf : f ≠ DeletedFlag)
    (hdecomp : (if c then sD payload else some payload) = some blob) :
    ((deleteFlagStep s pos).containers.getD pos.n [])[pos.offset + hashSize]?
      = some DeletedFlag ∧
    (j ≠ pos.offset + hashSize →
      ((deleteFlagStep s pos).containers.getD pos.n [])[j]?
        = (s.containers.getD pos.n [])[j]?) ∧
    (m ≠ pos.n →
      (deleteFlagStep s pos).containers.getD m [] = s.containers.getD m []) ∧
    (indexGet s.index hsh = some pos →
      Delete s hsh = (punchHole
        { deleteFlagStep s pos with index := indexDel s.index hsh } pos, none)) ∧
    scanFile H sD c n off (mkFrame bh DeletedFlag payload ++ rest)
      = scanFile H sD c n (off + Overhead + payload.length)
          ((mkFrame bh DeletedFlag payload ++ rest).drop
            (Overhead + payload.length)) ∧
    scanFile H sD c n off (mkFrame bh f payload ++ rest)
      = (if hexEncode bh = hexEncode (H blob) then
          ⟨⟨⟨n, off, payload.length⟩, f, bh, blob⟩ ::
            (scanFile H sD c n (off + Overhead + payload.length)
              ((mkFrame bh f payload ++ rest).drop
                (Overhead + payload.length))).items,
           (scanFile H sD c n (off + Overhead + payload.length)
              ((mkFrame bh f payload ++ rest).drop
                (Overhead + payload.length))).corrupted,
           (scanFile H sD c n (off + Overhead + payload.length)
              ((mkFrame bh f payload ++ rest).drop
                (Overhead + payload.length))).err⟩
        else
          ⟨(scanFile H sD c n (off + Overhead + payload.length)
              ((mkFrame bh f payload ++ rest).drop
                (Overhead + payload.length))).items,
           ⟨n, off, payload.length⟩ ::
            (scanFile H sD c n (off + Overhead + payload.length)
              ((mkFrame bh f payload ++ rest).drop
                (Overhead + payload.length))).corrupted,
           (scanFile H sD c n (off + Overhead + payload.length)
              ((mkFrame bh f payload ++ rest).drop
                (Overhead + payload.length))).err⟩) := by
  refine ⟨deleteFlagStep_flag_byte s pos hn hoff,
    fun hj => deleteFlagStep_other_byte s pos j hj,
    fun hm => deleteFlagStep_other_container s pos m hm,
    ?_,
    scanFile_frame_deleted H sD c n off bh payload rest hbh hsz,
    scanFile_frame_live H sD c n off bh f payload rest blob hbh hsz hf hdecomp⟩
  intro hfind
  simp only [Delete, hfind, deleteFlagStep]

/-- Witness for C9 at a concrete store and frame. -/
theorem c9_delete_tombstone_witness :
    ((deleteFlagStep s1 posC).containers.getD posC.n [])[posC.offset + hashSize]?
      = some DeletedFlag :=
  (c9_delete_tombstone s1 posC (hW b0) hW sD0 false 0 6 (hW b0) [5] [] [5] 0 0 1
    (by decide) (by decide) (by decide) (by decide) (by decide) (by decide)).1

/-- C10: the server's sync handler emits the needed-bucket list under the
JSON key `needed`, but the client's `SyncResp` struct decodes that field
from the misspelled tag `nedeed`; Go's unmarshalling matches neither
exactly nor case-insensitively, so for every `200` body produced by the
handler the decoded `Needed` list is empty (while `conflicted` and
`missing` survive the round trip), and the client therefore never
processes needed buckets. -/
theorem c10_nedeed_json_mismatch (B A : PeerState) (c n m : List Bytes)
    (hresp : syncHandler B A = .ok c n m) :
    (decodeSyncResp (respObj c n m)).needed = [] ∧
    (decodeSyncResp (respObj c n m)).conflicted = c ∧
    (decodeSyncResp (respObj c n m)).missing = m := by
  rw [decodeSyncResp_respObj]
  exact ⟨rfl, rfl, rfl⟩

/-- Witness for C10: the concrete handler reply of the two fixture peers
loses its non-empty `needed` list in decoding. -/
theorem c10_nedeed_json_mismatch_witness :
    (decodeSyncResp (respObj [] [strBytes "aa"] [strBytes "bb"])).needed = [] ∧
    (decodeSyncResp (respObj [] [strBytes "aa"] [strBytes "bb"])).conflicted
      = [] ∧
    (decodeSyncResp (respObj [] [strBytes "aa"] [strBytes "bb"])).missing
      = [strBytes "bb"] :=
  c10_nedeed_json_mismatch stB stA [] [strBytes "aa"] [strBytes "bb"]
    (by decide)

end Claims

